import Mathlib

/-!
# Evidence store, prefix map and required properties

A shallow embedding of `src/evidence.c`, followed by a model of the required
properties of `properties.c`, a file that is not among the sources and is
modelled from the spec and from `src/tests/PropertiesTests.cpp`.

* C pointers to borrowed strings (`const char *`, `void *`) are `Option String`,
  with `none` standing for `NULL`.
* `uint32_t` counters are `Nat`.  Every counter of the source stays at or below
  `capacity`, which is itself a `uint32_t`, so no increment of the source wraps.
* The enum values and the bit mask handed to iterate are natural numbers (the
  bit pattern of the C integer), combined with `&&&` and `|||`.
* The slots of a store are a function from the slot index to the pair held
  there; only the indices below `capacity` belong to the allocation.
-/

namespace FiftyoneDegrees

/-! ## Data model (declared in `evidence.h`) -/

/-- Modelled from the spec: `FIFTYONE_DEGREES_EVIDENCE_IGNORE` is declared in
`evidence.h`, which is not part of the sources at hand. The spec names the
category `Ignore` and identifies it with the value 0. -/
def FIFTYONE_DEGREES_EVIDENCE_IGNORE : Nat := 0

/-- Modelled from the spec: `FIFTYONE_DEGREES_EVIDENCE_SERVER` is declared in
`evidence.h`, which is not part of the sources at hand. The spec calls the
categories bitmask-combinable tags; each real category is given one bit of its
own, in the order the spec lists them. No property proved below depends on
which bit a real category has. -/
def FIFTYONE_DEGREES_EVIDENCE_SERVER : Nat := 1

/-- Modelled from the spec: see `FIFTYONE_DEGREES_EVIDENCE_SERVER`. -/
def FIFTYONE_DEGREES_EVIDENCE_HTTP_HEADER_STRING : Nat := 2

/-- Modelled from the spec: see `FIFTYONE_DEGREES_EVIDENCE_SERVER`. -/
def FIFTYONE_DEGREES_EVIDENCE_HTTP_HEADER_IP_ADDRESSES : Nat := 4

/-- Modelled from the spec: see `FIFTYONE_DEGREES_EVIDENCE_SERVER`. -/
def FIFTYONE_DEGREES_EVIDENCE_QUERY : Nat := 8

/-- Modelled from the spec: see `FIFTYONE_DEGREES_EVIDENCE_SERVER`. -/
def FIFTYONE_DEGREES_EVIDENCE_COOKIE : Nat := 16

/-- The struct `fiftyoneDegreesEvidenceKeyValuePair`. The C member `prefix`
(the category tag) is called `category` here. -/
structure EvidenceKeyValuePair where
  category : Nat
  field : Option String
  originalValue : Option String
  parsedValue : Option String
deriving DecidableEq, Repr

/-- The struct `fiftyoneDegreesEvidenceKeyValuePairArray`: the slots, the
number of slots in use and the number of slots allocated. -/
structure EvidenceKeyValuePairArray where
  items : Nat → EvidenceKeyValuePair
  count : Nat
  capacity : Nat

/-- Modelled from the spec: the macro `FIFTYONE_DEGREES_ARRAY_CREATE` is
declared in a header that is not part of the sources at hand. Per the spec it
allocates `capacity` slots and the new store has `count == 0`; allocation failure
yields no store. `memory` is the content of the freshly allocated block, `none`
when the allocation fails. -/
def FIFTYONE_DEGREES_ARRAY_CREATE (memory : Option (Nat → EvidenceKeyValuePair))
    (capacity : Nat) : Option EvidenceKeyValuePairArray :=
  match memory with
  | none => none
  | some slots => some { items := slots, count := 0, capacity := capacity }

/-! ## `fiftyoneDegreesEvidenceCreate` -/

/-- One pass of the body of the `for` loop of `fiftyoneDegreesEvidenceCreate`. -/
def createBody (evidence : EvidenceKeyValuePairArray) (i : Nat) :
    EvidenceKeyValuePairArray :=
  { evidence with
    items := Function.update evidence.items i
      { field := none
        originalValue := none
        parsedValue := none
        category := FIFTYONE_DEGREES_EVIDENCE_IGNORE } }

/-- The loop `for (i = ...; i < evidence->capacity; i++)` of
`fiftyoneDegreesEvidenceCreate`, started at `i`. The first argument bounds the
number of passes; `fiftyoneDegreesEvidenceCreate` hands in `capacity`, which the
loop never exhausts before its condition fails. -/
def createLoop : Nat → EvidenceKeyValuePairArray → Nat → EvidenceKeyValuePairArray
  | 0, evidence, _ => evidence
  | fuel + 1, evidence, i =>
    if i < evidence.capacity then
      createLoop fuel (createBody evidence i) (i + 1)
    else
      evidence

/-- The function `fiftyoneDegreesEvidenceCreate`. -/
def fiftyoneDegreesEvidenceCreate (memory : Option (Nat → EvidenceKeyValuePair))
    (capacity : Nat) : Option EvidenceKeyValuePairArray :=
  match FIFTYONE_DEGREES_ARRAY_CREATE memory capacity with
  | none => none
  | some evidence => some (createLoop evidence.capacity evidence 0)

/-! ## `fiftyoneDegreesEvidenceAddString` -/

/-- The function `fiftyoneDegreesEvidenceAddString`. The result is the returned
pointer, given as the index of the slot it points to (`none` for `NULL`),
together with the store after the call. -/
def fiftyoneDegreesEvidenceAddString (evidence : EvidenceKeyValuePairArray)
    (category : Nat) (field : Option String) (originalValue : Option String) :
    Option Nat × EvidenceKeyValuePairArray :=
  if evidence.count < evidence.capacity then
    (some evidence.count,
      { evidence with
        count := evidence.count + 1
        items := Function.update evidence.items evidence.count
          { category := category
            field := field
            originalValue := originalValue
            parsedValue := none } })
  else
    (none, evidence)

/-! ## `parsePair` and `fiftyoneDegreesEvidenceIterate` -/

/-- The function `parsePair`. Every `case` label of its `switch`, the one for
`FIFTYONE_DEGREES_EVIDENCE_HTTP_HEADER_IP_ADDRESSES` included (its own statement
is commented out), falls through to the body of `default`, so there is one body
for every category. The store argument is not used by that body. -/
def parsePair (_evidence : EvidenceKeyValuePairArray) (pair : EvidenceKeyValuePair) :
    EvidenceKeyValuePair :=
  { pair with parsedValue := pair.originalValue }

/-- The type `fiftyoneDegreesEvidenceIterateMethod`: a callback is handed the
caller's state and the pair, and answers with the caller's state after the call
and the flag telling iterate whether to continue. A callback must not change
the store, so the store is no part of what it returns. -/
abbrev EvidenceIterateMethod (σ : Type) := σ → EvidenceKeyValuePair → σ × Bool

/-- Record of one callback invocation made by iterate (bookkeeping of the
model, not data of the program): the index of the slot, the pair as the callback
saw it, whether `parsePair` was run on it just before, and what the callback
returned. -/
structure IterateCall where
  index : Nat
  pair : EvidenceKeyValuePair
  parsed : Bool
  result : Bool
deriving DecidableEq, Repr

/-- The variables of `fiftyoneDegreesEvidenceIterate` while its loop runs: the
store, the caller's state, the locals `i`, `count` and `cont`, and the record of
the callback invocations made so far. -/
structure IterateState (σ : Type) where
  evidence : EvidenceKeyValuePairArray
  state : σ
  i : Nat
  count : Nat
  cont : Bool
  calls : List IterateCall

/-- The test `(pair->prefix & prefixes) == pair->prefix` of iterate. -/
def categoryInMask (prefixes : Nat) (pair : EvidenceKeyValuePair) : Bool :=
  decide (pair.category &&& prefixes = pair.category)

/-- One pass of the body of the `while` loop of
`fiftyoneDegreesEvidenceIterate`. -/
def iterateBody {σ : Type} (prefixes : Nat) (callback : EvidenceIterateMethod σ)
    (st : IterateState σ) : IterateState σ :=
  let pair := st.evidence.items st.i
  if categoryInMask prefixes pair = true then
    let toParse := decide (pair.parsedValue = none)
    let pair1 := if toParse = true then parsePair st.evidence pair else pair
    let r := callback st.state pair1
    { evidence := { st.evidence with items := Function.update st.evidence.items st.i pair1 }
      state := r.1
      i := st.i + 1
      count := st.count + 1
      cont := r.2
      calls := st.calls ++
        [{ index := st.i, pair := pair1, parsed := toParse, result := r.2 }] }
  else
    { st with i := st.i + 1 }

/-- The loop `while (cont == true && i < evidence->count)` of
`fiftyoneDegreesEvidenceIterate`. The first argument bounds the number of
passes; `fiftyoneDegreesEvidenceIterate` hands in `count`, which the loop never
exhausts before its condition fails (`iterateLoop_exit`). -/
def iterateLoop {σ : Type} (prefixes : Nat) (callback : EvidenceIterateMethod σ) :
    Nat → IterateState σ → IterateState σ
  | 0, st => st
  | fuel + 1, st =>
    if st.cont = true ∧ st.i < st.evidence.count then
      iterateLoop prefixes callback fuel (iterateBody prefixes callback st)
    else
      st

/-- The function `fiftyoneDegreesEvidenceIterate`. Of the final state, `count`
is the value the C function returns, `evidence` is the store after the call and
`state` the caller's state after the call. -/
def fiftyoneDegreesEvidenceIterate {σ : Type} (evidence : EvidenceKeyValuePairArray)
    (prefixes : Nat) (state : σ) (callback : EvidenceIterateMethod σ) : IterateState σ :=
  iterateLoop prefixes callback evidence.count
    { evidence := evidence, state := state, i := 0, count := 0, cont := true, calls := [] }

/-! ## The prefix map and `fiftyoneDegreesEvidenceMapPrefix` -/

/-- The struct `fiftyoneDegreesEvidencePrefixMap`. The C member `prefix` is
called `prefixText` here. -/
structure EvidencePrefixMap where
  prefixText : String
  prefixLength : Nat
  prefixEnum : Nat
deriving DecidableEq, Repr

/-- The C expression `sizeof("...")` of a string literal: its characters and
the terminating NUL. -/
def sizeofLiteral (s : String) : Nat := s.length + 1

/-- The static table `_map`. -/
def _map : List EvidencePrefixMap :=
  [ { prefixText := "server.", prefixLength := sizeofLiteral "server." - 1,
      prefixEnum := FIFTYONE_DEGREES_EVIDENCE_SERVER },
    { prefixText := "header.", prefixLength := sizeofLiteral "header." - 1,
      prefixEnum := FIFTYONE_DEGREES_EVIDENCE_HTTP_HEADER_STRING },
    { prefixText := "query.", prefixLength := sizeofLiteral "query." - 1,
      prefixEnum := FIFTYONE_DEGREES_EVIDENCE_QUERY },
    { prefixText := "cookie.", prefixLength := sizeofLiteral "cookie." - 1,
      prefixEnum := FIFTYONE_DEGREES_EVIDENCE_COOKIE } ]

/-- The character a C string holds at its head: the end of the list is the
terminating NUL. -/
def headChar (s : List Char) : Nat :=
  match s with
  | [] => 0
  | c :: _ => c.toNat

/-- The C library function `strlen`: the number of characters before the first
NUL. -/
def strlen : List Char → Nat
  | [] => 0
  | c :: cs => if c.toNat = 0 then 0 else strlen cs + 1

/-- The C library function `strncmp`: compares at most `n` characters and stops
at a NUL; the result is zero when no difference was found. -/
def strncmp : List Char → List Char → Nat → Int
  | _, _, 0 => 0
  | s1, s2, n + 1 =>
    if headChar s1 ≠ headChar s2 then (headChar s1 : Int) - (headChar s2 : Int)
    else if headChar s1 = 0 then 0
    else strncmp s1.tail s2.tail n

/-- The `for` loop of `fiftyoneDegreesEvidenceMapPrefix`, started at index `i`.
The first argument bounds the number of passes. -/
def mapPrefixLoop (key : List Char) (length : Nat) : Nat → Nat → Option EvidencePrefixMap
  | 0, _ => none
  | fuel + 1, i =>
    if h : i < _map.length then
      let map := _map[i]
      if map.prefixLength < length ∧
          strncmp map.prefixText.toList key map.prefixLength = 0 then
        some map
      else
        mapPrefixLoop key length fuel (i + 1)
    else
      none

/-- The function `fiftyoneDegreesEvidenceMapPrefix`; `none` is `NULL`. -/
def fiftyoneDegreesEvidenceMapPrefix (key : String) : Option EvidencePrefixMap :=
  let length := strlen key.toList
  mapPrefixLoop key.toList length _map.length 0

/-! ## Notions used to state the properties -/

/-- The pair iterate hands to the callback for a slot holding `pair`: the pair
itself, after `parsePair` when its `parsedValue` is `NULL`. -/
def visitedPair (pair : EvidenceKeyValuePair) : EvidenceKeyValuePair :=
  if pair.parsedValue = none then { pair with parsedValue := pair.originalValue } else pair

/-- The indices `i ≤ j < count`, in ascending order, whose pair passes the
category test of iterate for the mask `prefixes`. -/
def matchingIndices (items : Nat → EvidenceKeyValuePair) (count prefixes i : Nat) :
    List Nat :=
  (List.range' i (count - i)).filter (fun j => categoryInMask prefixes (items j))

/-- The callback invocations expected for a list of slot indices: the callback
is run on the slots in turn, threading the caller's state, until it has
returned `false` once. -/
def walkCalls {σ : Type} (callback : EvidenceIterateMethod σ)
    (items : Nat → EvidenceKeyValuePair) : List Nat → σ → List IterateCall × σ
  | [], state => ([], state)
  | j :: js, state =>
    let r := callback state (visitedPair (items j))
    let call : IterateCall :=
      { index := j, pair := visitedPair (items j),
        parsed := decide ((items j).parsedValue = none), result := r.2 }
    if r.2 = true then
      (call :: (walkCalls callback items js r.1).1, (walkCalls callback items js r.1).2)
    else
      ([call], r.1)

/-- The mask formed by OR-ing all real categories (every category except
`Ignore`). -/
def allRealCategories : Nat :=
  FIFTYONE_DEGREES_EVIDENCE_SERVER ||| FIFTYONE_DEGREES_EVIDENCE_HTTP_HEADER_STRING |||
  FIFTYONE_DEGREES_EVIDENCE_HTTP_HEADER_IP_ADDRESSES ||| FIFTYONE_DEGREES_EVIDENCE_QUERY |||
  FIFTYONE_DEGREES_EVIDENCE_COOKIE

/-- An operation a caller can apply to a store it holds. -/
inductive EvidenceOp (σ : Type) where
  | addString (category : Nat) (field : Option String) (originalValue : Option String)
  | iterate (prefixes : Nat) (callback : EvidenceIterateMethod σ)

/-- Applies one operation to a store and the caller's state. -/
def applyOp {σ : Type} (op : EvidenceOp σ) (p : EvidenceKeyValuePairArray × σ) :
    EvidenceKeyValuePairArray × σ :=
  match op with
  | .addString category field originalValue =>
    ((fiftyoneDegreesEvidenceAddString p.1 category field originalValue).2, p.2)
  | .iterate prefixes callback =>
    ((fiftyoneDegreesEvidenceIterate p.1 prefixes p.2 callback).evidence,
      (fiftyoneDegreesEvidenceIterate p.1 prefixes p.2 callback).state)

/-- Applies a finite sequence of operations, first to last. -/
def applyOps {σ : Type} (ops : List (EvidenceOp σ)) (p : EvidenceKeyValuePairArray × σ) :
    EvidenceKeyValuePairArray × σ :=
  ops.foldl (fun q op => applyOp op q) p

/-- A finite sequence of iterate calls, each with its own mask and callback,
made one after another on the same store: the store and the caller's state after
the last call, and the record of all callback invocations in the order they
were made. -/
def iterateSeq {σ : Type} :
    List (Nat × EvidenceIterateMethod σ) → EvidenceKeyValuePairArray → σ →
      EvidenceKeyValuePairArray × σ × List IterateCall
  | [], evidence, state => (evidence, state, [])
  | (prefixes, callback) :: rest, evidence, state =>
    let r := fiftyoneDegreesEvidenceIterate evidence prefixes state callback
    let t := iterateSeq rest r.evidence r.state
    (t.1, t.2.1, r.calls ++ t.2.2)

/-- The string a `const char *` denotes: the characters before the first NUL. -/
def cString (s : List Char) : List Char :=
  s.takeWhile (fun c => decide (c.toNat ≠ 0))

/-- The match test of the spec for a table entry and a key: the key is strictly
longer than the entry's prefix and begins with it. -/
def entryMatches (key : List Char) (e : EvidencePrefixMap) : Bool :=
  decide (e.prefixText.toList.length < key.length) && e.prefixText.toList.isPrefixOf key

/-- The number of times `parsePair` was run on the slot `j` in a record of
callback invocations. -/
def parseCount (calls : List IterateCall) (j : Nat) : Nat :=
  calls.countP (fun c => decide (c.index = j) && c.parsed)

/-! ## Concrete stores and callbacks used as instances -/

/-- A freshly allocated block of memory whose slots hold left-over data. -/
def staleMemory : Nat → EvidenceKeyValuePair :=
  fun _ => { category := 7, field := some "stale", originalValue := some "stale",
             parsedValue := some "stale" }

/-- A store in which the number of slots in use has reached the capacity. -/
def fullStore : EvidenceKeyValuePairArray :=
  { items := staleMemory, count := 2, capacity := 2 }

/-- A store of capacity 4 holding, in this order, a header pair, an `Ignore`
pair and a cookie pair. -/
def sampleStore : EvidenceKeyValuePairArray :=
  { items := fun j =>
      if j = 0 then
        { category := FIFTYONE_DEGREES_EVIDENCE_HTTP_HEADER_STRING,
          field := some "user-agent", originalValue := some "agent", parsedValue := none }
      else if j = 1 then
        { category := FIFTYONE_DEGREES_EVIDENCE_IGNORE,
          field := some "other", originalValue := some "thing", parsedValue := none }
      else if j = 2 then
        { category := FIFTYONE_DEGREES_EVIDENCE_COOKIE,
          field := some "session", originalValue := some "abc", parsedValue := none }
      else
        { category := FIFTYONE_DEGREES_EVIDENCE_IGNORE,
          field := none, originalValue := none, parsedValue := none }
    count := 3
    capacity := 4 }

/-- A callback that counts its invocations and always asks to continue. -/
def countingCallback : EvidenceIterateMethod Nat :=
  fun n _ => (n + 1, true)

/-- A callback that counts its invocations and asks to stop at the first. -/
def stoppingCallback : EvidenceIterateMethod Nat :=
  fun n _ => (n + 1, false)

/-- The store obtained from a fresh store of capacity 1 by adding one header
pair whose value is `NULL`. -/
def nullValueStore : EvidenceKeyValuePairArray :=
  (fiftyoneDegreesEvidenceAddString
    (createLoop 1 { items := staleMemory, count := 0, capacity := 1 } 0)
    FIFTYONE_DEGREES_EVIDENCE_HTTP_HEADER_STRING (some "accept") none).2

/-! ## Sequences of additions -/

/-- Adds the inputs (category, field, value) one after another with
`fiftyoneDegreesEvidenceAddString`: the pointers the calls returned, in order,
and the store after the last call. -/
def addStrings :
    List (Nat × Option String × Option String) → EvidenceKeyValuePairArray →
      List (Option Nat) × EvidenceKeyValuePairArray
  | [], evidence => ([], evidence)
  | input :: rest, evidence =>
    ((fiftyoneDegreesEvidenceAddString evidence input.1 input.2.1 input.2.2).1 ::
        (addStrings rest
          (fiftyoneDegreesEvidenceAddString evidence input.1 input.2.1 input.2.2).2).1,
      (addStrings rest
        (fiftyoneDegreesEvidenceAddString evidence input.1 input.2.1 input.2.2).2).2)

/-! ## The prefix lookup over an arbitrary table -/

/-- The `for` loop of `fiftyoneDegreesEvidenceMapPrefix` run over a table given
as an argument; the source runs it over `_map` (`mapPrefixLoop`). -/
def mapPrefixLoopIn (table : List EvidencePrefixMap) (key : List Char) (length : Nat) :
    Nat → Nat → Option EvidencePrefixMap
  | 0, _ => none
  | fuel + 1, i =>
    if h : i < table.length then
      let map := table[i]
      if map.prefixLength < length ∧
          strncmp map.prefixText.toList key map.prefixLength = 0 then
        some map
      else
        mapPrefixLoopIn table key length fuel (i + 1)
    else
      none

/-- The function `fiftyoneDegreesEvidenceMapPrefix` with the table `_map`
replaced by the table given as an argument. -/
def mapPrefixIn (table : List EvidencePrefixMap) (key : String) : Option EvidencePrefixMap :=
  let length := strlen key.toList
  mapPrefixLoopIn table key.toList length table.length 0

/-! ## Required properties (`properties.c`)

The file `properties.c` is not among the sources at hand; only its test,
`tests/PropertiesTests.cpp`, is. The definitions of this section are modelled
from the spec. A catalog is the list of its property names, in catalog order.
Allocation is taken to succeed. -/

/-- Modelled from the spec: `properties.c` and `properties.h` are not part of
the sources at hand. Names are compared "case-insensitively ... (byte/codepoint
order after folding case)"; this is the folding, letter by letter, of a name
to the list of its characters, which is what names are compared by. -/
def foldCase (s : String) : List Char :=
  s.data.map Char.toLower

/-- Modelled from the spec: the type `fiftyoneDegreesPropertiesRequired` is
declared in `properties.h`, which is not part of the sources at hand. Per the
spec a required-properties spec is "one of — a delimited string of names, or an
explicit sequence of name strings"; its third form, the pass-through of an
already resolved set, builds no set of its own and is left out. -/
inductive PropertiesRequired where
  | string (names : String)
  | array (names : List String)
deriving DecidableEq, Repr

/-- Modelled from the spec: one entry of the resolved set, declared in
`properties.h`, which is not part of the sources at hand: a "(string,
catalogIndex)" pair. -/
structure PropertyAvailable where
  name : String
  propertyIndex : Nat
deriving DecidableEq, Repr

/-- Modelled from the spec: the type `fiftyoneDegreesPropertiesAvailable` is
declared in `properties.h`, which is not part of the sources at hand: the
"ordered sequence of (string, catalogIndex) pairs". -/
structure PropertiesAvailable where
  items : List PropertyAvailable
deriving DecidableEq, Repr

/-- Modelled from the spec: the member `count` of
`fiftyoneDegreesPropertiesAvailable` (`properties.h` is not part of the sources
at hand): the number of entries of the resolved set. -/
def PropertiesAvailable.count (available : PropertiesAvailable) : Nat :=
  available.items.length

/-- Modelled from the spec: `properties.c` is not part of the sources at hand.
The characters that separate the names of a delimited string. In the spec the
string "Cyan,Yellow, Black ,Blue|" resolves the names Yellow, Black and Blue, so
both the comma and the bar end a name. -/
def isNameDelimiter (c : Char) : Bool :=
  c = ',' || c = '|'

/-- Modelled from the spec: `properties.c` is not part of the sources at hand.
Step 1 for a delimited string: "split the delimiter-separated string on the
delimiter". -/
def splitNames : List Char → List (List Char)
  | [] => [[]]
  | c :: cs =>
    if isNameDelimiter c = true then [] :: splitNames cs
    else
      match splitNames cs with
      | [] => [[c]]
      | token :: tokens => (c :: token) :: tokens

/-- Modelled from the spec: `properties.c` is not part of the sources at hand.
"Whitespace around each token must be trimmed from both ends before
comparison". -/
def trimName (token : List Char) : List Char :=
  ((token.dropWhile Char.isWhitespace).reverse.dropWhile Char.isWhitespace).reverse

/-- Modelled from the spec: `properties.c` is not part of the sources at hand.
Step 1 of create: "obtain a raw sequence of requested names: split the
delimiter-separated string ... or use the supplied name sequence directly". -/
def requestedNames : PropertiesRequired → List String
  | .string names => (splitNames names.data).map (fun token => String.mk (trimName token))
  | .array names => names

/-- Modelled from the spec: `properties.c` is not part of the sources at hand.
"Absence of any (null/empty) means all catalog properties are required": no
spec, an empty string or an empty array. -/
def specAbsent : Option PropertiesRequired → Bool
  | none => true
  | some (.string names) => names.data.isEmpty
  | some (.array names) => names.isEmpty

/-- Modelled from the spec: `properties.c` is not part of the sources at hand.
Step 2 of create: "deduplicate case-insensitively"; of the names that are equal
when case is ignored one is kept (the last one; the spec leaves open which). -/
def dedupNames : List String → List String
  | [] => []
  | name :: names =>
    if foldCase name ∈ names.map foldCase then dedupNames names
    else name :: dedupNames names

/-- Modelled from the spec: `properties.c` is not part of the sources at hand.
Step 3 of create: "look it up in catalog by case-insensitive exact match; record
its catalog index if found". The catalog is scanned from the entry with index
`index` on; the first entry that matches is the one recorded. -/
def catalogLookupFrom (name : String) : List String → Nat → Option PropertyAvailable
  | [], _ => none
  | entry :: entries, index =>
    if foldCase entry = foldCase name then some { name := entry, propertyIndex := index }
    else catalogLookupFrom name entries (index + 1)

/-- Modelled from the spec: `properties.c` is not part of the sources at hand.
The lookup of step 3 over the whole catalog; a name that is not found "is
dropped, not stored with a sentinel". -/
def catalogLookup (catalog : List String) (name : String) : Option PropertyAvailable :=
  catalogLookupFrom name catalog 0

/-- Modelled from the spec: `properties.c` is not part of the sources at hand.
The order of step 4: "case-insensitively ascending (byte/codepoint order after
folding case)". -/
def nameLE (a b : PropertyAvailable) : Prop :=
  foldCase a.name ≤ foldCase b.name

instance nameLE.decidable : DecidableRel nameLE :=
  fun a b => inferInstanceAs (Decidable (foldCase a.name ≤ foldCase b.name))

/-- Modelled from the spec: `properties.c` is not part of the sources at hand.
"If spec is absent, the result is every catalog entry, in catalog order, each
self-indexed": the entries of a catalog whose first entry has index `index`. -/
def allPropertiesFrom : List String → Nat → List PropertyAvailable
  | [], _ => []
  | entry :: entries, index =>
    { name := entry, propertyIndex := index } :: allPropertiesFrom entries (index + 1)

/-- Modelled from the spec: `properties.c` is not part of the sources at hand.
The function `fiftyoneDegreesPropertiesCreate`: without a spec every catalog
entry in catalog order; otherwise the requested names (step 1), deduplicated
ignoring case (step 2), resolved against the catalog (step 3) and sorted
ignoring case (step 4). The position in the result is the required index. -/
def fiftyoneDegreesPropertiesCreate (required : Option PropertiesRequired)
    (catalog : List String) : PropertiesAvailable :=
  match required with
  | none => { items := allPropertiesFrom catalog 0 }
  | some spec =>
    if specAbsent (some spec) = true then { items := allPropertiesFrom catalog 0 }
    else
      { items := List.insertionSort nameLE
          ((dedupNames (requestedNames spec)).filterMap (catalogLookup catalog)) }

/-- Modelled from the spec: `properties.c` is not part of the sources at hand.
The search of `fiftyoneDegreesPropertiesGetRequiredPropertyIndexFromName` over
the entries from the position `index` on: the position of the first entry whose
name equals the name when case is ignored, -1 when there is none. -/
def searchName (name : String) : List PropertyAvailable → Nat → Int
  | [], _ => -1
  | p :: ps, index =>
    if foldCase p.name = foldCase name then (index : Int)
    else searchName name ps (index + 1)

/-- Modelled from the spec: `properties.c` is not part of the sources at hand.
The function `fiftyoneDegreesPropertiesGetRequiredPropertyIndexFromName`:
"case-insensitive exact-match binary or linear search over resolved.names; -1
when absent" (here the linear search). -/
def fiftyoneDegreesPropertiesGetRequiredPropertyIndexFromName
    (available : PropertiesAvailable) (name : String) : Int :=
  searchName name available.items 0

/-- Modelled from the spec: `properties.c` is not part of the sources at hand.
The function `fiftyoneDegreesPropertiesGetNameFromRequiredIndex`: the name at a
required index in `[0, count)`; an index out of range is a violation of the
contract and yields no name. -/
def fiftyoneDegreesPropertiesGetNameFromRequiredIndex
    (available : PropertiesAvailable) (index : Int) : Option String :=
  if 0 ≤ index then (available.items[index.toNat]?).map (fun p => p.name) else none

/-- The names a resolved set was asked for: the requested names of the spec,
and every catalog name when the spec is absent ("all catalog properties are
required"). -/
def requiredNames (required : Option PropertiesRequired) (catalog : List String) :
    List String :=
  match required with
  | none => catalog
  | some spec => if specAbsent (some spec) = true then catalog else requestedNames spec

/-- The property names of `tests/PropertiesTests.cpp` (`testValues`). -/
def testValues : List String :=
  ["Red", "Yellow", "Green", "Blue", "Brown", "Black", "White"]

/-- A catalog holding one name in two spellings. -/
def twoSpellings : List String :=
  ["yellow", "Yellow"]

theorem createLoop_count (fuel : Nat) (evidence : EvidenceKeyValuePairArray) (i : Nat) :
    (createLoop fuel evidence i).count = evidence.count := by
  induction fuel generalizing evidence i with
  | zero => rfl
  | succ n ih =>
    unfold createLoop
    split
    · rw [ih]; rfl
    · rfl

theorem createLoop_capacity (fuel : Nat) (evidence : EvidenceKeyValuePairArray) (i : Nat) :
    (createLoop fuel evidence i).capacity = evidence.capacity := by
  induction fuel generalizing evidence i with
  | zero => rfl
  | succ n ih =>
    unfold createLoop
    split
    · rw [ih]; rfl
    · rfl

/-- Slots below the start index are not touched by the loop. -/
theorem createLoop_items_below (fuel : Nat) (evidence : EvidenceKeyValuePairArray)
    (i j : Nat) (hj : j < i) :
    (createLoop fuel evidence i).items j = evidence.items j := by
  induction fuel generalizing evidence i with
  | zero => rfl
  | succ n ih =>
    unfold createLoop
    split
    · rw [ih _ _ (by omega)]
      simp [createBody, Function.update, Nat.ne_of_lt hj]
    · rfl

/-- With enough passes allowed, every slot from the start index up to the
capacity is initialised. -/
theorem createLoop_items_init (fuel : Nat) (evidence : EvidenceKeyValuePairArray)
    (i j : Nat) (hfuel : evidence.capacity - i ≤ fuel) (hij : i ≤ j)
    (hj : j < evidence.capacity) :
    (createLoop fuel evidence i).items j =
      { field := none, originalValue := none, parsedValue := none,
        category := FIFTYONE_DEGREES_EVIDENCE_IGNORE } := by
  induction fuel generalizing evidence i with
  | zero => omega
  | succ n ih =>
    unfold createLoop
    have hi : i < evidence.capacity := by omega
    rw [if_pos hi]
    rcases Nat.eq_or_lt_of_le hij with h | h
    · subst h
      rw [createLoop_items_below _ _ _ _ (Nat.lt_succ_self _)]
      simp [createBody]
    · exact ih (createBody evidence i) (i + 1)
        (by simp only [createBody]; omega) h (by simpa [createBody] using hj)

/-! ## Lemmas on `iterateLoop` -/

theorem iterateLoop_stop {σ : Type} (prefixes : Nat) (callback : EvidenceIterateMethod σ)
    (fuel : Nat) (st : IterateState σ) (h : st.cont = false) :
    iterateLoop prefixes callback fuel st = st := by
  cases fuel with
  | zero => rfl
  | succ n => simp [iterateLoop, h]

theorem iterateLoop_done {σ : Type} (prefixes : Nat) (callback : EvidenceIterateMethod σ)
    (fuel : Nat) (st : IterateState σ) (h : st.evidence.count ≤ st.i) :
    iterateLoop prefixes callback fuel st = st := by
  cases fuel with
  | zero => rfl
  | succ n => simp [iterateLoop, Nat.not_lt.mpr h]

theorem matchingIndices_done (items : Nat → EvidenceKeyValuePair) (count prefixes i : Nat)
    (h : count ≤ i) : matchingIndices items count prefixes i = [] := by
  simp [matchingIndices, Nat.sub_eq_zero_of_le h]

theorem matchingIndices_step (items : Nat → EvidenceKeyValuePair) (count prefixes i : Nat)
    (h : i < count) :
    matchingIndices items count prefixes i =
      if categoryInMask prefixes (items i) = true then
        i :: matchingIndices items count prefixes (i + 1)
      else matchingIndices items count prefixes (i + 1) := by
  have hc : count - i = (count - (i + 1)) + 1 := by omega
  simp only [matchingIndices]
  rw [hc, List.range'_succ, List.filter_cons]

theorem visitedPair_eq (evidence : EvidenceKeyValuePairArray) (pair : EvidenceKeyValuePair) :
    (if decide (pair.parsedValue = none) = true then parsePair evidence pair else pair) =
      visitedPair pair := by
  simp [visitedPair, parsePair]

/-- The loop of iterate makes exactly the callback invocations of `walkCalls`
on the matching indices still ahead of it; `items0` is the content of the slots
not yet reached. -/
theorem iterateLoop_spec {σ : Type} (prefixes : Nat) (callback : EvidenceIterateMethod σ)
    (items0 : Nat → EvidenceKeyValuePair) (fuel : Nat) (st : IterateState σ)
    (hfuel : st.evidence.count - st.i ≤ fuel)
    (hitems : ∀ j, st.i ≤ j → st.evidence.items j = items0 j)
    (hcont : st.cont = true) :
    (iterateLoop prefixes callback fuel st).calls =
        st.calls ++ (walkCalls callback items0
          (matchingIndices items0 st.evidence.count prefixes st.i) st.state).1 ∧
    (iterateLoop prefixes callback fuel st).state =
        (walkCalls callback items0
          (matchingIndices items0 st.evidence.count prefixes st.i) st.state).2 ∧
    (iterateLoop prefixes callback fuel st).count =
        st.count + (walkCalls callback items0
          (matchingIndices items0 st.evidence.count prefixes st.i) st.state).1.length ∧
    (iterateLoop prefixes callback fuel st).evidence.count = st.evidence.count ∧
    (iterateLoop prefixes callback fuel st).evidence.capacity = st.evidence.capacity ∧
    ∀ j, (iterateLoop prefixes callback fuel st).evidence.items j =
      if j ∈ (walkCalls callback items0
          (matchingIndices items0 st.evidence.count prefixes st.i) st.state).1.map
            (fun c => c.index)
      then visitedPair (items0 j) else st.evidence.items j := by
  induction fuel generalizing st with
  | zero =>
    have h : st.evidence.count ≤ st.i := by omega
    simp [iterateLoop, matchingIndices_done _ _ _ _ h, walkCalls]
  | succ n ih =>
    by_cases hi : st.i < st.evidence.count
    · have hloop : iterateLoop prefixes callback (n + 1) st =
          iterateLoop prefixes callback n (iterateBody prefixes callback st) := by
        simp [iterateLoop, hcont, hi]
      rw [hloop, matchingIndices_step _ _ _ _ hi]
      have hit : st.evidence.items st.i = items0 st.i := hitems _ (Nat.le_refl _)
      by_cases hm : categoryInMask prefixes (items0 st.i) = true
      · -- the pair matches: the callback is invoked
        have hbody : iterateBody prefixes callback st =
            { evidence := { st.evidence with
                items := Function.update st.evidence.items st.i (visitedPair (items0 st.i)) }
              state := (callback st.state (visitedPair (items0 st.i))).1
              i := st.i + 1
              count := st.count + 1
              cont := (callback st.state (visitedPair (items0 st.i))).2
              calls := st.calls ++
                [{ index := st.i, pair := visitedPair (items0 st.i),
                   parsed := decide ((items0 st.i).parsedValue = none),
                   result := (callback st.state (visitedPair (items0 st.i))).2 }] } := by
          simp only [iterateBody, hit, hm, if_true, visitedPair_eq]
        rw [if_pos hm, hbody]
        by_cases hr : (callback st.state (visitedPair (items0 st.i))).2 = true
        · have := ih
            { evidence := { st.evidence with
                items := Function.update st.evidence.items st.i (visitedPair (items0 st.i)) }
              state := (callback st.state (visitedPair (items0 st.i))).1
              i := st.i + 1
              count := st.count + 1
              cont := (callback st.state (visitedPair (items0 st.i))).2
              calls := st.calls ++
                [{ index := st.i, pair := visitedPair (items0 st.i),
                   parsed := decide ((items0 st.i).parsedValue = none),
                   result := (callback st.state (visitedPair (items0 st.i))).2 }] }
            (by simp only; omega)
            (by
              intro j hj
              simp only at hj ⊢
              rw [Function.update_noteq (by omega)]
              exact hitems j (by omega))
            hr
          simp only [hr] at this
          obtain ⟨h1, h2, h3, h4, h5, h6⟩ := this
          simp only [walkCalls, hr, if_true]
          refine ⟨?_, h2, ?_, h4, h5, ?_⟩
          · rw [h1]; simp
          · rw [h3]; simp; omega
          · intro j
            rw [h6 j]
            by_cases hji : j = st.i
            · subst hji; simp
            · simp [Function.update_noteq hji, hji]
        · have hstop := iterateLoop_stop prefixes callback n
            { evidence := { st.evidence with
                items := Function.update st.evidence.items st.i (visitedPair (items0 st.i)) }
              state := (callback st.state (visitedPair (items0 st.i))).1
              i := st.i + 1
              count := st.count + 1
              cont := (callback st.state (visitedPair (items0 st.i))).2
              calls := st.calls ++
                [{ index := st.i, pair := visitedPair (items0 st.i),
                   parsed := decide ((items0 st.i).parsedValue = none),
                   result := (callback st.state (visitedPair (items0 st.i))).2 }] }
            (by simpa using hr)
          rw [hstop]
          simp only [walkCalls, hr]
          refine ⟨by simp, by simp, by simp, trivial, trivial, ?_⟩
          intro j
          by_cases hji : j = st.i
          · subst hji; simp
          · simp [Function.update_noteq hji, hji]
      · -- the pair is filtered out by the mask
        have hbody : iterateBody prefixes callback st = { st with i := st.i + 1 } := by
          simp only [iterateBody, hit, hm]
          simp
        rw [if_neg hm, hbody]
        have := ih { st with i := st.i + 1 } (by simp only; omega)
          (by intro j hj; exact hitems j (by simp only at hj; omega)) hcont
        simpa using this
    · have h : st.evidence.count ≤ st.i := by omega
      rw [iterateLoop_done _ _ _ _ h]
      simp [matchingIndices_done _ _ _ _ h, walkCalls]

/-! ## Lemmas on `walkCalls` -/

theorem walkCalls_length_le {σ : Type} (callback : EvidenceIterateMethod σ)
    (items : Nat → EvidenceKeyValuePair) (l : List Nat) (state : σ) :
    (walkCalls callback items l state).1.length ≤ l.length := by
  induction l generalizing state with
  | nil => simp [walkCalls]
  | cons j js ih =>
    simp only [walkCalls]
    split
    · simpa using ih _
    · simp

/-- The slots the callback is invoked on are an initial segment of the list. -/
theorem walkCalls_index {σ : Type} (callback : EvidenceIterateMethod σ)
    (items : Nat → EvidenceKeyValuePair) (l : List Nat) (state : σ) :
    (walkCalls callback items l state).1.map (fun c => c.index) =
      l.take (walkCalls callback items l state).1.length := by
  induction l generalizing state with
  | nil => simp [walkCalls]
  | cons j js ih =>
    simp only [walkCalls]
    split
    · simp [ih]
    · simp

/-- Each invocation is made on the prepared pair of its slot. -/
theorem walkCalls_pair {σ : Type} (callback : EvidenceIterateMethod σ)
    (items : Nat → EvidenceKeyValuePair) (l : List Nat) (state : σ)
    (c : IterateCall) (hc : c ∈ (walkCalls callback items l state).1) :
    c.pair = visitedPair (items c.index) ∧
      c.parsed = decide ((items c.index).parsedValue = none) := by
  induction l generalizing state with
  | nil => simp [walkCalls] at hc
  | cons j js ih =>
    simp only [walkCalls] at hc
    split at hc
    · rcases List.mem_cons.mp hc with h | h
      · subst h; exact ⟨rfl, rfl⟩
      · exact ih _ h
    · rcases List.mem_singleton.mp hc with h
      subst h; exact ⟨rfl, rfl⟩

/-- An invocation that returned `false` is the last one. -/
theorem walkCalls_false_last {σ : Type} (callback : EvidenceIterateMethod σ)
    (items : Nat → EvidenceKeyValuePair) (l : List Nat) (state : σ) (k : Nat)
    (hk : k < (walkCalls callback items l state).1.length)
    (hres : ((walkCalls callback items l state).1.get ⟨k, hk⟩).result = false) :
    (walkCalls callback items l state).1.length = k + 1 := by
  induction l generalizing state k with
  | nil => simp [walkCalls] at hk
  | cons j js ih =>
    by_cases hr : (callback state (visitedPair (items j))).2 = true
    · have hw : (walkCalls callback items (j :: js) state).1 =
          { index := j, pair := visitedPair (items j),
            parsed := decide ((items j).parsedValue = none), result := true } ::
            (walkCalls callback items js (callback state (visitedPair (items j))).1).1 := by
        simp [walkCalls, hr]
      cases k with
      | zero =>
        simp [List.get_eq_getElem, hw] at hres
      | succ m =>
        have hk2 : m < (walkCalls callback items js
            (callback state (visitedPair (items j))).1).1.length := by
          simpa [hw] using hk
        have := ih (callback state (visitedPair (items j))).1 m hk2
          (by simpa [List.get_eq_getElem, hw] using hres)
        simp [hw, this]
    · have hw : (walkCalls callback items (j :: js) state).1 =
          [{ index := j, pair := visitedPair (items j),
             parsed := decide ((items j).parsedValue = none),
             result := (callback state (visitedPair (items j))).2 }] := by
        simp [walkCalls, hr]
      have hk1 : k = 0 := by simpa [hw] using hk
      subst hk1
      simp [hw]

/-- When no invocation returned `false`, every slot of the list was visited. -/
theorem walkCalls_all_true {σ : Type} (callback : EvidenceIterateMethod σ)
    (items : Nat → EvidenceKeyValuePair) (l : List Nat) (state : σ)
    (h : ∀ c ∈ (walkCalls callback items l state).1, c.result = true) :
    (walkCalls callback items l state).1.length = l.length := by
  induction l generalizing state with
  | nil => simp [walkCalls]
  | cons j js ih =>
    by_cases hr : (callback state (visitedPair (items j))).2 = true
    · simp only [walkCalls, hr, if_true] at h ⊢
      simp only [List.length_cons, Nat.add_right_cancel_iff]
      exact ih _ (fun c hc => h c (List.mem_cons_of_mem _ hc))
    · exfalso
      simp only [walkCalls, hr] at h
      simp at h

/-- With a callback that always returns `true` every slot of the list is
visited, and the caller's state is folded through them. -/
theorem walkCalls_always {σ : Type} (callback : EvidenceIterateMethod σ)
    (hcb : ∀ s p, (callback s p).2 = true)
    (items : Nat → EvidenceKeyValuePair) (l : List Nat) (state : σ) :
    (walkCalls callback items l state).1 =
        l.map (fun j => { index := j, pair := visitedPair (items j),
                          parsed := decide ((items j).parsedValue = none),
                          result := true }) ∧
    (walkCalls callback items l state).2 =
        l.foldl (fun s j => (callback s (visitedPair (items j))).1) state := by
  induction l generalizing state with
  | nil => simp [walkCalls]
  | cons j js ih =>
    simp only [walkCalls, hcb, if_true, List.map_cons, List.foldl_cons]
    exact ⟨by rw [(ih _).1], (ih _).2⟩

/-! ## The specification of `fiftyoneDegreesEvidenceIterate` -/

theorem matchingIndices_zero (items : Nat → EvidenceKeyValuePair) (count prefixes : Nat) :
    matchingIndices items count prefixes 0 =
      (List.range count).filter
        (fun j => decide ((items j).category &&& prefixes = (items j).category)) := by
  simp [matchingIndices, List.range_eq_range', categoryInMask]

theorem iterate_spec {σ : Type} (evidence : EvidenceKeyValuePairArray) (prefixes : Nat)
    (state : σ) (callback : EvidenceIterateMethod σ) :
    (fiftyoneDegreesEvidenceIterate evidence prefixes state callback).calls =
        (walkCalls callback evidence.items
          (matchingIndices evidence.items evidence.count prefixes 0) state).1 ∧
    (fiftyoneDegreesEvidenceIterate evidence prefixes state callback).state =
        (walkCalls callback evidence.items
          (matchingIndices evidence.items evidence.count prefixes 0) state).2 ∧
    (fiftyoneDegreesEvidenceIterate evidence prefixes state callback).count =
        (walkCalls callback evidence.items
          (matchingIndices evidence.items evidence.count prefixes 0) state).1.length ∧
    (fiftyoneDegreesEvidenceIterate evidence prefixes state callback).evidence.count =
        evidence.count ∧
    (fiftyoneDegreesEvidenceIterate evidence prefixes state callback).evidence.capacity =
        evidence.capacity ∧
    ∀ j, (fiftyoneDegreesEvidenceIterate evidence prefixes state callback).evidence.items j =
      if j ∈ (walkCalls callback evidence.items
          (matchingIndices evidence.items evidence.count prefixes 0) state).1.map
            (fun c => c.index)
      then visitedPair (evidence.items j) else evidence.items j := by
  have := iterateLoop_spec prefixes callback evidence.items evidence.count
    { evidence := evidence, state := state, i := 0, count := 0, cont := true, calls := [] }
    (by simp) (fun _ _ => rfl) rfl
  simpa [fiftyoneDegreesEvidenceIterate] using this

/-- The loop of iterate ends because its condition fails, not because the
bound on the number of passes is reached. -/
theorem iterateLoop_exit {σ : Type} (prefixes : Nat) (callback : EvidenceIterateMethod σ)
    (fuel : Nat) (st : IterateState σ) (hfuel : st.evidence.count - st.i ≤ fuel) :
    ¬ ((iterateLoop prefixes callback fuel st).cont = true ∧
        (iterateLoop prefixes callback fuel st).i <
          (iterateLoop prefixes callback fuel st).evidence.count) := by
  induction fuel generalizing st with
  | zero =>
    simp only [iterateLoop]
    omega
  | succ n ih =>
    simp only [iterateLoop]
    split
    · rename_i h
      apply ih
      have hc : (iterateBody prefixes callback st).evidence.count = st.evidence.count := by
        simp only [iterateBody]; split <;> rfl
      have hi : (iterateBody prefixes callback st).i = st.i + 1 := by
        simp only [iterateBody]; split <;> rfl
      rw [hc, hi]; omega
    · assumption

/-- The loop of `fiftyoneDegreesEvidenceIterate` has run to the point
where its condition fails when the function returns. -/
theorem iterate_exit {σ : Type} (evidence : EvidenceKeyValuePairArray) (prefixes : Nat)
    (state : σ) (callback : EvidenceIterateMethod σ) :
    ¬ ((fiftyoneDegreesEvidenceIterate evidence prefixes state callback).cont = true ∧
        (fiftyoneDegreesEvidenceIterate evidence prefixes state callback).i <
          (fiftyoneDegreesEvidenceIterate evidence prefixes state callback).evidence.count) :=
  iterateLoop_exit prefixes callback evidence.count _ (Nat.sub_le _ _)

/-! ## The store: create and add -/

/-- C1: on a store whose count equals its capacity,
`fiftyoneDegreesEvidenceAddString` returns `NULL` and leaves the store as it
was: the count still equals the capacity and every slot holds the same pair. -/
theorem addString_full_returns_null (evidence : EvidenceKeyValuePairArray)
    (category : Nat) (field originalValue : Option String)
    (hfull : evidence.count = evidence.capacity) :
    (fiftyoneDegreesEvidenceAddString evidence category field originalValue).1 = none ∧
    (fiftyoneDegreesEvidenceAddString evidence category field originalValue).2 = evidence ∧
    (fiftyoneDegreesEvidenceAddString evidence category field originalValue).2.count =
      (fiftyoneDegreesEvidenceAddString evidence category field originalValue).2.capacity ∧
    ∀ j, (fiftyoneDegreesEvidenceAddString evidence category field originalValue).2.items j =
      evidence.items j := by
  have h : ¬ evidence.count < evidence.capacity := by omega
  simp [fiftyoneDegreesEvidenceAddString, h, hfull]

theorem addString_full_returns_null_witness :
    fullStore.count = fullStore.capacity ∧
    (fiftyoneDegreesEvidenceAddString fullStore FIFTYONE_DEGREES_EVIDENCE_QUERY
      (some "q") (some "v")).1 = none ∧
    (fiftyoneDegreesEvidenceAddString fullStore FIFTYONE_DEGREES_EVIDENCE_QUERY
      (some "q") (some "v")).2 = fullStore :=
  ⟨rfl,
    (addString_full_returns_null fullStore FIFTYONE_DEGREES_EVIDENCE_QUERY
      (some "q") (some "v") rfl).1,
    (addString_full_returns_null fullStore FIFTYONE_DEGREES_EVIDENCE_QUERY
      (some "q") (some "v") rfl).2.1⟩

/-- C2: on a store whose count is below its capacity,
`fiftyoneDegreesEvidenceAddString` returns the slot at index (old count), that
slot then holds the given category, field and value and a `NULL` parsedValue,
and the new count is the old count plus one. -/
theorem addString_appends_at_count (evidence : EvidenceKeyValuePairArray)
    (category : Nat) (field originalValue : Option String)
    (hroom : evidence.count < evidence.capacity) :
    (fiftyoneDegreesEvidenceAddString evidence category field originalValue).1 =
      some evidence.count ∧
    (fiftyoneDegreesEvidenceAddString evidence category field originalValue).2.items
        evidence.count =
      { category := category, field := field, originalValue := originalValue,
        parsedValue := none } ∧
    (fiftyoneDegreesEvidenceAddString evidence category field originalValue).2.count =
      evidence.count + 1 := by
  simp [fiftyoneDegreesEvidenceAddString, hroom]

theorem addString_appends_at_count_witness :
    sampleStore.count < sampleStore.capacity ∧
    (fiftyoneDegreesEvidenceAddString sampleStore FIFTYONE_DEGREES_EVIDENCE_QUERY
      (some "q") (some "v")).1 = some 3 ∧
    (fiftyoneDegreesEvidenceAddString sampleStore FIFTYONE_DEGREES_EVIDENCE_QUERY
      (some "q") (some "v")).2.items 3 =
      { category := FIFTYONE_DEGREES_EVIDENCE_QUERY, field := some "q",
        originalValue := some "v", parsedValue := none } ∧
    (fiftyoneDegreesEvidenceAddString sampleStore FIFTYONE_DEGREES_EVIDENCE_QUERY
      (some "q") (some "v")).2.count = 3 + 1 :=
  ⟨by decide,
    addString_appends_at_count sampleStore FIFTYONE_DEGREES_EVIDENCE_QUERY
      (some "q") (some "v") (by decide)⟩

/-- C10: for every capacity, a successful `fiftyoneDegreesEvidenceCreate`
(the allocation succeeded, whatever the fresh memory holds) returns a store with
count 0 and the requested capacity, in which every one of the capacity slots has
category `Ignore` and `NULL` field, originalValue and parsedValue. -/
theorem create_initialises_store (slots : Nat → EvidenceKeyValuePair) (capacity : Nat) :
    ∃ evidence, fiftyoneDegreesEvidenceCreate (some slots) capacity = some evidence ∧
      evidence.count = 0 ∧ evidence.capacity = capacity ∧
      ∀ j, j < capacity →
        evidence.items j =
          { category := FIFTYONE_DEGREES_EVIDENCE_IGNORE, field := none,
            originalValue := none, parsedValue := none } := by
  refine ⟨_, rfl, ?_, ?_, ?_⟩
  · rw [createLoop_count]
  · rw [createLoop_capacity]
  · intro j hj
    exact createLoop_items_init _ _ 0 j (Nat.le_of_eq (Nat.sub_zero _)) (Nat.zero_le _) hj

/-! ## The invariant `count <= capacity` -/

theorem create_count_capacity (memory : Option (Nat → EvidenceKeyValuePair))
    (capacity : Nat) (evidence : EvidenceKeyValuePairArray)
    (h : fiftyoneDegreesEvidenceCreate memory capacity = some evidence) :
    evidence.count = 0 ∧ evidence.capacity = capacity := by
  cases memory with
  | none => simp [fiftyoneDegreesEvidenceCreate, FIFTYONE_DEGREES_ARRAY_CREATE] at h
  | some slots =>
    simp only [fiftyoneDegreesEvidenceCreate, FIFTYONE_DEGREES_ARRAY_CREATE,
      Option.some.injEq] at h
    subst h
    exact ⟨by rw [createLoop_count], by rw [createLoop_capacity]⟩

theorem addString_invariant (evidence : EvidenceKeyValuePairArray)
    (category : Nat) (field originalValue : Option String)
    (h : evidence.count ≤ evidence.capacity) :
    (fiftyoneDegreesEvidenceAddString evidence category field originalValue).2.count ≤
      (fiftyoneDegreesEvidenceAddString evidence category field originalValue).2.capacity ∧
    (fiftyoneDegreesEvidenceAddString evidence category field originalValue).2.capacity =
      evidence.capacity := by
  unfold fiftyoneDegreesEvidenceAddString
  split
  · exact ⟨by simp only; omega, rfl⟩
  · exact ⟨h, rfl⟩

theorem applyOp_invariant {σ : Type} (op : EvidenceOp σ)
    (p : EvidenceKeyValuePairArray × σ) (h : p.1.count ≤ p.1.capacity) :
    (applyOp op p).1.count ≤ (applyOp op p).1.capacity ∧
      (applyOp op p).1.capacity = p.1.capacity := by
  cases op with
  | addString category field originalValue =>
    exact addString_invariant p.1 category field originalValue h
  | iterate prefixes callback =>
    have hs := iterate_spec p.1 prefixes p.2 callback
    simp only [applyOp]
    rw [hs.2.2.2.1, hs.2.2.2.2.1]
    exact ⟨h, rfl⟩

theorem applyOps_invariant {σ : Type} (ops : List (EvidenceOp σ))
    (p : EvidenceKeyValuePairArray × σ) (h : p.1.count ≤ p.1.capacity) :
    (applyOps ops p).1.count ≤ (applyOps ops p).1.capacity ∧
      (applyOps ops p).1.capacity = p.1.capacity := by
  induction ops generalizing p with
  | nil => exact ⟨h, rfl⟩
  | cons op rest ih =>
    have h1 := applyOp_invariant op p h
    have h2 := ih (applyOp op p) h1.1
    simp only [applyOps, List.foldl_cons] at h2 ⊢
    exact ⟨h2.1, h2.2.trans h1.2⟩

/-- C3: `count <= capacity` is an invariant of the evidence store. It holds for
the store returned by `fiftyoneDegreesEvidenceCreate` for every capacity, it is
preserved by every call of `fiftyoneDegreesEvidenceAddString` and of
`fiftyoneDegreesEvidenceIterate` (any mask, any callback), and so it holds in
every store reached from create by a finite sequence of these operations; the
capacity never changes. -/
theorem count_le_capacity_invariant :
    (∀ (memory : Option (Nat → EvidenceKeyValuePair)) (capacity : Nat)
        (evidence : EvidenceKeyValuePairArray),
        fiftyoneDegreesEvidenceCreate memory capacity = some evidence →
        evidence.count ≤ evidence.capacity ∧ evidence.capacity = capacity) ∧
    (∀ (evidence : EvidenceKeyValuePairArray) (category : Nat)
        (field originalValue : Option String),
        evidence.count ≤ evidence.capacity →
        (fiftyoneDegreesEvidenceAddString evidence category field originalValue).2.count ≤
          (fiftyoneDegreesEvidenceAddString evidence category field
            originalValue).2.capacity ∧
        (fiftyoneDegreesEvidenceAddString evidence category field originalValue).2.capacity =
          evidence.capacity) ∧
    (∀ (σ : Type) (evidence : EvidenceKeyValuePairArray) (prefixes : Nat) (state : σ)
        (callback : EvidenceIterateMethod σ),
        evidence.count ≤ evidence.capacity →
        (fiftyoneDegreesEvidenceIterate evidence prefixes state callback).evidence.count ≤
          (fiftyoneDegreesEvidenceIterate evidence prefixes state
            callback).evidence.capacity ∧
        (fiftyoneDegreesEvidenceIterate evidence prefixes state callback).evidence.capacity =
          evidence.capacity) ∧
    (∀ (σ : Type) (memory : Option (Nat → EvidenceKeyValuePair)) (capacity : Nat)
        (evidence : EvidenceKeyValuePairArray) (state : σ) (ops : List (EvidenceOp σ)),
        fiftyoneDegreesEvidenceCreate memory capacity = some evidence →
        (applyOps ops (evidence, state)).1.count ≤
          (applyOps ops (evidence, state)).1.capacity ∧
        (applyOps ops (evidence, state)).1.capacity = capacity) := by
  refine ⟨?_, ?_, ?_, ?_⟩
  · intro memory capacity evidence h
    have hc := create_count_capacity memory capacity evidence h
    exact ⟨by rw [hc.1]; exact Nat.zero_le _, hc.2⟩
  · intro evidence category field originalValue h
    exact addString_invariant evidence category field originalValue h
  · intro σ evidence prefixes state callback h
    have hs := iterate_spec evidence prefixes state callback
    rw [hs.2.2.2.1, hs.2.2.2.2.1]
    exact ⟨h, rfl⟩
  · intro σ memory capacity evidence state ops h
    have hc := create_count_capacity memory capacity evidence h
    have := applyOps_invariant ops (evidence, state)
      (by simp only; rw [hc.1]; exact Nat.zero_le _)
    exact ⟨this.1, this.2.trans hc.2⟩

theorem count_le_capacity_invariant_witness :
    fiftyoneDegreesEvidenceCreate (some staleMemory) 1 =
      some (createLoop 1 { items := staleMemory, count := 0, capacity := 1 } 0) ∧
    (applyOps
      [EvidenceOp.addString FIFTYONE_DEGREES_EVIDENCE_QUERY (some "q") (some "v"),
       EvidenceOp.iterate FIFTYONE_DEGREES_EVIDENCE_QUERY countingCallback,
       EvidenceOp.addString FIFTYONE_DEGREES_EVIDENCE_COOKIE (some "c") (some "w")]
      (createLoop 1 { items := staleMemory, count := 0, capacity := 1 } 0, 0)).1.count ≤
    (applyOps
      [EvidenceOp.addString FIFTYONE_DEGREES_EVIDENCE_QUERY (some "q") (some "v"),
       EvidenceOp.iterate FIFTYONE_DEGREES_EVIDENCE_QUERY countingCallback,
       EvidenceOp.addString FIFTYONE_DEGREES_EVIDENCE_COOKIE (some "c") (some "w")]
      (createLoop 1 { items := staleMemory, count := 0, capacity := 1 } 0, 0)).1.capacity :=
  ⟨rfl,
    (count_le_capacity_invariant.2.2.2 Nat (some staleMemory) 1
      (createLoop 1 { items := staleMemory, count := 0, capacity := 1 } 0) 0
      [EvidenceOp.addString FIFTYONE_DEGREES_EVIDENCE_QUERY (some "q") (some "v"),
       EvidenceOp.iterate FIFTYONE_DEGREES_EVIDENCE_QUERY countingCallback,
       EvidenceOp.addString FIFTYONE_DEGREES_EVIDENCE_COOKIE (some "c") (some "w")]
      rfl).1⟩

/-! ## Iteration -/

/-- C4: with a callback that always returns `true`,
`fiftyoneDegreesEvidenceIterate` invokes the callback on exactly the pairs at
indices below count whose category satisfies `(category & mask) == category`,
each exactly once and in index order, and returns the number of such pairs; on
an empty store it makes no callback and returns 0. -/
theorem iterate_visits_matching_in_order {σ : Type} (evidence : EvidenceKeyValuePairArray)
    (prefixes : Nat) (state : σ) (callback : EvidenceIterateMethod σ)
    (hcb : ∀ s p, (callback s p).2 = true) :
    (fiftyoneDegreesEvidenceIterate evidence prefixes state callback).calls.map
        (fun c => c.index) =
      (List.range evidence.count).filter
        (fun j => decide ((evidence.items j).category &&& prefixes =
          (evidence.items j).category)) ∧
    (fiftyoneDegreesEvidenceIterate evidence prefixes state callback).calls.map
        (fun c => c.pair) =
      ((List.range evidence.count).filter
        (fun j => decide ((evidence.items j).category &&& prefixes =
          (evidence.items j).category))).map (fun j => visitedPair (evidence.items j)) ∧
    ((fiftyoneDegreesEvidenceIterate evidence prefixes state callback).calls.map
        (fun c => c.index)).Nodup ∧
    (fiftyoneDegreesEvidenceIterate evidence prefixes state callback).count =
      ((List.range evidence.count).filter
        (fun j => decide ((evidence.items j).category &&& prefixes =
          (evidence.items j).category))).length ∧
    (fiftyoneDegreesEvidenceIterate evidence prefixes state callback).state =
      ((List.range evidence.count).filter
        (fun j => decide ((evidence.items j).category &&& prefixes =
          (evidence.items j).category))).foldl
        (fun s j => (callback s (visitedPair (evidence.items j))).1) state ∧
    (evidence.count = 0 →
      (fiftyoneDegreesEvidenceIterate evidence prefixes state callback).calls = [] ∧
      (fiftyoneDegreesEvidenceIterate evidence prefixes state callback).count = 0) := by
  have hs := iterate_spec evidence prefixes state callback
  have hw := walkCalls_always callback hcb evidence.items
    (matchingIndices evidence.items evidence.count prefixes 0) state
  rw [matchingIndices_zero] at hs hw
  have hcalls := hs.1.trans hw.1
  have hidx : (fiftyoneDegreesEvidenceIterate evidence prefixes state callback).calls.map
        (fun c => c.index) =
      (List.range evidence.count).filter
        (fun j => decide ((evidence.items j).category &&& prefixes =
          (evidence.items j).category)) := by
    rw [hcalls, List.map_map]
    exact (List.map_congr_left (fun _ _ => rfl)).trans (List.map_id _)
  refine ⟨hidx, ?_, ?_, ?_, ?_, ?_⟩
  · rw [hcalls, List.map_map]
    exact List.map_congr_left (fun _ _ => rfl)
  · rw [hidx]
    exact List.Nodup.filter _ (List.nodup_range _)
  · rw [hs.2.2.1, hw.1, List.length_map]
  · rw [hs.2.1, hw.2]
  · intro h0
    have hnil : (fiftyoneDegreesEvidenceIterate evidence prefixes state callback).calls = [] := by
      rw [hcalls, h0]; rfl
    refine ⟨hnil, ?_⟩
    rw [hs.2.2.1, ← hs.1, hnil]; rfl

theorem iterate_visits_matching_in_order_witness :
    (∀ s p, (countingCallback s p).2 = true) ∧
    (fiftyoneDegreesEvidenceIterate sampleStore FIFTYONE_DEGREES_EVIDENCE_COOKIE 0
        countingCallback).calls.map (fun c => c.index) =
      (List.range sampleStore.count).filter
        (fun j => decide ((sampleStore.items j).category &&& FIFTYONE_DEGREES_EVIDENCE_COOKIE =
          (sampleStore.items j).category)) ∧
    (List.range sampleStore.count).filter
        (fun j => decide ((sampleStore.items j).category &&& FIFTYONE_DEGREES_EVIDENCE_COOKIE =
          (sampleStore.items j).category)) = [1, 2] :=
  ⟨fun _ _ => rfl,
    (iterate_visits_matching_in_order sampleStore FIFTYONE_DEGREES_EVIDENCE_COOKIE 0
      countingCallback (fun _ _ => rfl)).1,
    by decide⟩

/-- C5: the value returned by `fiftyoneDegreesEvidenceIterate` is the number of
callback invocations made. The pairs passed to the callback are the first so
many matching pairs in index order; when the callback returns `false` on the
k-th of them no later pair is passed and the value returned is k (the stopping
pair is counted), and when it never returns `false` all matching pairs are
passed. The value returned is at most the number of matching pairs, which is at
most the store's count, and it can be smaller than both. -/
theorem iterate_count_and_early_stop :
    (∀ (σ : Type) (evidence : EvidenceKeyValuePairArray) (prefixes : Nat) (state : σ)
        (callback : EvidenceIterateMethod σ),
      (fiftyoneDegreesEvidenceIterate evidence prefixes state callback).count =
        (fiftyoneDegreesEvidenceIterate evidence prefixes state callback).calls.length ∧
      (fiftyoneDegreesEvidenceIterate evidence prefixes state callback).calls.map
          (fun c => c.index) =
        ((List.range evidence.count).filter
          (fun j => decide ((evidence.items j).category &&& prefixes =
            (evidence.items j).category))).take
          (fiftyoneDegreesEvidenceIterate evidence prefixes state callback).count ∧
      (∀ (k : Nat)
          (hk : k < (fiftyoneDegreesEvidenceIterate evidence prefixes state
            callback).calls.length),
          ((fiftyoneDegreesEvidenceIterate evidence prefixes state callback).calls.get
            ⟨k, hk⟩).result = false →
          (fiftyoneDegreesEvidenceIterate evidence prefixes state callback).count = k + 1) ∧
      ((∀ c ∈ (fiftyoneDegreesEvidenceIterate evidence prefixes state callback).calls,
          c.result = true) →
        (fiftyoneDegreesEvidenceIterate evidence prefixes state callback).count =
          ((List.range evidence.count).filter
            (fun j => decide ((evidence.items j).category &&& prefixes =
              (evidence.items j).category))).length) ∧
      (fiftyoneDegreesEvidenceIterate evidence prefixes state callback).count ≤
        ((List.range evidence.count).filter
          (fun j => decide ((evidence.items j).category &&& prefixes =
            (evidence.items j).category))).length ∧
      ((List.range evidence.count).filter
          (fun j => decide ((evidence.items j).category &&& prefixes =
            (evidence.items j).category))).length ≤ evidence.count) ∧
    ((fiftyoneDegreesEvidenceIterate sampleStore FIFTYONE_DEGREES_EVIDENCE_COOKIE 0
        stoppingCallback).count = 1 ∧
      ((List.range sampleStore.count).filter
        (fun j => decide ((sampleStore.items j).category &&& FIFTYONE_DEGREES_EVIDENCE_COOKIE =
          (sampleStore.items j).category))).length = 2 ∧
      sampleStore.count = 3) := by
  refine ⟨?_, by decide, by decide, rfl⟩
  intro σ evidence prefixes state callback
  have hs := iterate_spec evidence prefixes state callback
  rw [matchingIndices_zero] at hs
  have hlen : (fiftyoneDegreesEvidenceIterate evidence prefixes state callback).count =
      (fiftyoneDegreesEvidenceIterate evidence prefixes state callback).calls.length := by
    rw [hs.2.2.1, hs.1]
  refine ⟨hlen, ?_, ?_, ?_, ?_, ?_⟩
  · rw [hlen, hs.1]
    exact walkCalls_index _ _ _ _
  · intro k hk hres
    rw [hlen]
    have hk2 : k < (walkCalls callback evidence.items
        ((List.range evidence.count).filter
          (fun j => decide ((evidence.items j).category &&& prefixes =
            (evidence.items j).category))) state).1.length := by
      rw [← hs.1]; exact hk
    have := walkCalls_false_last callback evidence.items _ state k hk2
      (by simpa [List.get_eq_getElem, hs.1] using hres)
    rw [hs.1]; exact this
  · intro hall
    rw [hs.2.2.1]
    exact walkCalls_all_true callback evidence.items _ state (by rw [← hs.1]; exact hall)
  · rw [hs.2.2.1]
    exact walkCalls_length_le _ _ _ _
  · exact (List.length_filter_le _ _).trans (le_of_eq (List.length_range _))

theorem iterate_count_and_early_stop_witness :
    ((fiftyoneDegreesEvidenceIterate sampleStore FIFTYONE_DEGREES_EVIDENCE_COOKIE 0
        stoppingCallback).calls.get ⟨0, by decide⟩).result = false ∧
    (fiftyoneDegreesEvidenceIterate sampleStore FIFTYONE_DEGREES_EVIDENCE_COOKIE 0
        stoppingCallback).count = 0 + 1 :=
  ⟨by decide,
    (iterate_count_and_early_stop.1 Nat sampleStore FIFTYONE_DEGREES_EVIDENCE_COOKIE 0
      stoppingCallback).2.2.1 0 (by decide) (by decide)⟩

/-! ## Memoization of the parsed value -/

theorem visitedPair_idem (pair : EvidenceKeyValuePair) :
    visitedPair (visitedPair pair) = visitedPair pair := by
  unfold visitedPair
  by_cases h : pair.parsedValue = none
  · by_cases h2 : pair.originalValue = none
    · simp [h, h2]
    · simp [h, h2]
  · simp [h]

theorem visitedPair_originalValue (pair : EvidenceKeyValuePair) :
    (visitedPair pair).originalValue = pair.originalValue := by
  unfold visitedPair
  split <;> rfl

theorem visitedPair_of_parsed (pair : EvidenceKeyValuePair) (h : pair.parsedValue ≠ none) :
    visitedPair pair = pair := by
  simp [visitedPair, h]

/-- Within one call of iterate no slot is visited twice. -/
theorem iterate_calls_nodup {σ : Type} (evidence : EvidenceKeyValuePairArray)
    (prefixes : Nat) (state : σ) (callback : EvidenceIterateMethod σ) :
    ((fiftyoneDegreesEvidenceIterate evidence prefixes state callback).calls.map
      (fun c => c.index)).Nodup := by
  rw [(iterate_spec evidence prefixes state callback).1, walkCalls_index, matchingIndices_zero]
  exact ((List.nodup_range _).filter _).sublist (List.take_sublist _ _)

/-- Each invocation of one call of iterate is made on the prepared pair of its
slot, which is what the slot holds afterwards. -/
theorem iterate_call_pair {σ : Type} (evidence : EvidenceKeyValuePairArray)
    (prefixes : Nat) (state : σ) (callback : EvidenceIterateMethod σ) (c : IterateCall)
    (hc : c ∈ (fiftyoneDegreesEvidenceIterate evidence prefixes state callback).calls) :
    c.pair = visitedPair (evidence.items c.index) ∧
    c.parsed = decide ((evidence.items c.index).parsedValue = none) ∧
    (fiftyoneDegreesEvidenceIterate evidence prefixes state callback).evidence.items c.index =
      c.pair := by
  have hs := iterate_spec evidence prefixes state callback
  have hp := walkCalls_pair callback evidence.items _ state c (by rw [← hs.1]; exact hc)
  refine ⟨hp.1, hp.2, ?_⟩
  rw [hs.2.2.2.2.2 c.index, if_pos, hp.1]
  rw [← hs.1]
  exact List.mem_map_of_mem _ hc

/-- After one call of iterate a slot holds either what it held or the prepared
pair of what it held. -/
theorem iterate_items_cases {σ : Type} (evidence : EvidenceKeyValuePairArray)
    (prefixes : Nat) (state : σ) (callback : EvidenceIterateMethod σ) (j : Nat) :
    (fiftyoneDegreesEvidenceIterate evidence prefixes state callback).evidence.items j =
        evidence.items j ∨
    (fiftyoneDegreesEvidenceIterate evidence prefixes state callback).evidence.items j =
        visitedPair (evidence.items j) := by
  rw [(iterate_spec evidence prefixes state callback).2.2.2.2.2 j]
  split
  · exact Or.inr rfl
  · exact Or.inl rfl

/-- A slot whose pair is its own prepared pair is left alone by any sequence of
iterate calls, and every invocation on it sees that pair, unparsed. -/
theorem iterateSeq_settled {σ : Type} (calls : List (Nat × EvidenceIterateMethod σ))
    (evidence : EvidenceKeyValuePairArray) (state : σ) (j : Nat)
    (hset : visitedPair (evidence.items j) = evidence.items j) :
    (iterateSeq calls evidence state).1.items j = evidence.items j ∧
    ∀ c ∈ (iterateSeq calls evidence state).2.2, c.index = j → c.pair = evidence.items j := by
  induction calls generalizing evidence state with
  | nil =>
    simp [iterateSeq]
  | cons head rest ih =>
    obtain ⟨prefixes, callback⟩ := head
    have hkeep : (fiftyoneDegreesEvidenceIterate evidence prefixes state
        callback).evidence.items j = evidence.items j := by
      rcases iterate_items_cases evidence prefixes state callback j with h | h
      · exact h
      · rw [h, hset]
    have := ih (fiftyoneDegreesEvidenceIterate evidence prefixes state callback).evidence
      (fiftyoneDegreesEvidenceIterate evidence prefixes state callback).state
      (by rw [hkeep]; exact hset)
    rw [hkeep] at this
    simp only [iterateSeq]
    refine ⟨this.1, ?_⟩
    intro c hc hcj
    rcases List.mem_append.mp hc with h | h
    · have hp := (iterate_call_pair evidence prefixes state callback c h).1
      rw [hp, hcj, hset]
    · exact this.2 c h hcj

/-- A slot whose parsedValue is set is never parsed by any sequence of iterate
calls. -/
theorem iterateSeq_parsed_never {σ : Type} (calls : List (Nat × EvidenceIterateMethod σ))
    (evidence : EvidenceKeyValuePairArray) (state : σ) (j : Nat)
    (hset : (evidence.items j).parsedValue ≠ none) :
    parseCount (iterateSeq calls evidence state).2.2 j = 0 := by
  induction calls generalizing evidence state with
  | nil => simp [iterateSeq, parseCount]
  | cons head rest ih =>
    obtain ⟨prefixes, callback⟩ := head
    have hkeep : (fiftyoneDegreesEvidenceIterate evidence prefixes state
        callback).evidence.items j = evidence.items j := by
      rcases iterate_items_cases evidence prefixes state callback j with h | h
      · exact h
      · rw [h, visitedPair_of_parsed _ hset]
    have h2 := ih (fiftyoneDegreesEvidenceIterate evidence prefixes state callback).evidence
      (fiftyoneDegreesEvidenceIterate evidence prefixes state callback).state
      (by rw [hkeep]; exact hset)
    have h1 : parseCount (fiftyoneDegreesEvidenceIterate evidence prefixes state
        callback).calls j = 0 := by
      simp only [parseCount, List.countP_eq_zero]
      intro c hc
      have hp := (iterate_call_pair evidence prefixes state callback c hc).2.1
      by_cases hcj : c.index = j
      · rw [hp, hcj]; simp [hset]
      · simp [hcj]
    simp only [parseCount, iterateSeq, List.countP_append] at h1 h2 ⊢
    omega

/-- One call of iterate parses a slot at most once. -/
theorem iterate_parseCount_le_one {σ : Type} (evidence : EvidenceKeyValuePairArray)
    (prefixes : Nat) (state : σ) (callback : EvidenceIterateMethod σ) (j : Nat) :
    parseCount (fiftyoneDegreesEvidenceIterate evidence prefixes state callback).calls j ≤ 1 := by
  have hnd := iterate_calls_nodup evidence prefixes state callback
  have h1 : parseCount (fiftyoneDegreesEvidenceIterate evidence prefixes state callback).calls j ≤
      ((fiftyoneDegreesEvidenceIterate evidence prefixes state callback).calls.map
        (fun c => c.index)).count j := by
    rw [List.count, List.countP_map]
    apply List.countP_mono_left
    intro c _ hc
    simp only [Bool.and_eq_true, decide_eq_true_eq] at hc
    simp [hc.1]
  exact h1.trans (List.nodup_iff_count_le_one.mp hnd j)

theorem iterateSeq_parseCount_le_one {σ : Type}
    (calls : List (Nat × EvidenceIterateMethod σ))
    (evidence : EvidenceKeyValuePairArray) (state : σ) (j : Nat)
    (hval : (evidence.items j).originalValue ≠ none) :
    parseCount (iterateSeq calls evidence state).2.2 j ≤ 1 := by
  induction calls generalizing evidence state with
  | nil => simp [iterateSeq, parseCount]
  | cons head rest ih =>
    obtain ⟨prefixes, callback⟩ := head
    have horig : ((fiftyoneDegreesEvidenceIterate evidence prefixes state
        callback).evidence.items j).originalValue ≠ none := by
      rcases iterate_items_cases evidence prefixes state callback j with h | h
      · rw [h]; exact hval
      · rw [h, visitedPair_originalValue]; exact hval
    have h1 := iterate_parseCount_le_one evidence prefixes state callback j
    have hsplit : parseCount (iterateSeq ((prefixes, callback) :: rest) evidence state).2.2 j =
        parseCount (fiftyoneDegreesEvidenceIterate evidence prefixes state callback).calls j +
        parseCount (iterateSeq rest
          (fiftyoneDegreesEvidenceIterate evidence prefixes state callback).evidence
          (fiftyoneDegreesEvidenceIterate evidence prefixes state callback).state).2.2 j := by
      simp only [parseCount, iterateSeq, List.countP_append]
    rw [hsplit]
    by_cases hz : parseCount (fiftyoneDegreesEvidenceIterate evidence prefixes state
        callback).calls j = 0
    · rw [hz, Nat.zero_add]
      exact ih _ _ horig
    · -- the slot was parsed by this call: its parsedValue is now set
      have hpos : 0 < List.countP (fun c => decide (c.index = j) && c.parsed)
          (fiftyoneDegreesEvidenceIterate evidence prefixes state callback).calls :=
        Nat.pos_of_ne_zero hz
      obtain ⟨c, hc, hcp⟩ := List.countP_pos_iff.mp hpos
      simp only [Bool.and_eq_true, decide_eq_true_eq] at hcp
      have hp := iterate_call_pair evidence prefixes state callback c hc
      have hnone : (evidence.items j).parsedValue = none := by
        have := hp.2.1
        rw [hcp.2, hcp.1] at this
        simpa using this.symm
      have hnow : ((fiftyoneDegreesEvidenceIterate evidence prefixes state
          callback).evidence.items j).parsedValue ≠ none := by
        have h3 := hp.2.2
        rw [hp.1, hcp.1] at h3
        rw [h3]
        simp [visitedPair, hnone, hval]
      rw [iterateSeq_parsed_never rest _ _ j hnow]
      omega

theorem visitedPair_of_null (pair : EvidenceKeyValuePair)
    (ho : pair.originalValue = none) (hp : pair.parsedValue = none) :
    visitedPair pair = pair := by
  cases pair
  simp_all [visitedPair]

/-- A slot whose originalValue and parsedValue are both `NULL` is parsed at
every visit of any sequence of iterate calls, and the callback sees a `NULL`
parsedValue each time. -/
theorem iterateSeq_null_always {σ : Type} (calls : List (Nat × EvidenceIterateMethod σ))
    (evidence : EvidenceKeyValuePairArray) (state : σ) (j : Nat)
    (ho : (evidence.items j).originalValue = none)
    (hp : (evidence.items j).parsedValue = none) :
    ∀ c ∈ (iterateSeq calls evidence state).2.2, c.index = j →
      c.parsed = true ∧ c.pair.parsedValue = none := by
  induction calls generalizing evidence state with
  | nil => intro c hc; simp [iterateSeq] at hc
  | cons head rest ih =>
    obtain ⟨prefixes, callback⟩ := head
    have hset := visitedPair_of_null (evidence.items j) ho hp
    have hkeep : (fiftyoneDegreesEvidenceIterate evidence prefixes state
        callback).evidence.items j = evidence.items j := by
      rcases iterate_items_cases evidence prefixes state callback j with h | h
      · exact h
      · rw [h, hset]
    intro c hc hcj
    simp only [iterateSeq] at hc
    rcases List.mem_append.mp hc with h | h
    · have hcp := iterate_call_pair evidence prefixes state callback c h
      rw [hcj] at hcp
      exact ⟨by rw [hcp.2.1, hp]; rfl, by rw [hcp.1, hset, hp]⟩
    · exact ih (fiftyoneDegreesEvidenceIterate evidence prefixes state callback).evidence
        (fiftyoneDegreesEvidenceIterate evidence prefixes state callback).state
        (by rw [hkeep]; exact ho) (by rw [hkeep]; exact hp) c h hcj

/-- C6, as amended: over every finite sequence of iterate calls on a store
(any masks, any callbacks), `parsePair` is executed at most once for each pair
whose originalValue or parsedValue is not `NULL` before the calls; a pair whose
originalValue and parsedValue are both `NULL` is parsed at every visit, its
parsedValue staying `NULL`. For every pair, once it has been visited the slot
keeps the pair the callback saw (parsedValue included) through all later calls,
so every visit of a slot sees the same pair. -/
theorem iterate_parse_at_most_once {σ : Type}
    (calls : List (Nat × EvidenceIterateMethod σ))
    (evidence : EvidenceKeyValuePairArray) (state : σ) :
    (∀ j, ((evidence.items j).originalValue ≠ none ∨
        (evidence.items j).parsedValue ≠ none) →
      parseCount (iterateSeq calls evidence state).2.2 j ≤ 1) ∧
    (∀ c ∈ (iterateSeq calls evidence state).2.2,
      (evidence.items c.index).originalValue = none →
      (evidence.items c.index).parsedValue = none →
      c.parsed = true ∧ c.pair.parsedValue = none) ∧
    (∀ c ∈ (iterateSeq calls evidence state).2.2,
      (iterateSeq calls evidence state).1.items c.index = c.pair) ∧
    (∀ c1 ∈ (iterateSeq calls evidence state).2.2,
      ∀ c2 ∈ (iterateSeq calls evidence state).2.2,
      c1.index = c2.index → c1.pair = c2.pair) := by
  have hb : ∀ (calls : List (Nat × EvidenceIterateMethod σ))
      (evidence : EvidenceKeyValuePairArray) (state : σ),
      ∀ c ∈ (iterateSeq calls evidence state).2.2,
        (iterateSeq calls evidence state).1.items c.index = c.pair := by
    intro calls
    induction calls with
    | nil => intro evidence state c hc; simp [iterateSeq] at hc
    | cons head rest ih =>
      intro evidence state c hc
      obtain ⟨prefixes, callback⟩ := head
      simp only [iterateSeq] at hc ⊢
      rcases List.mem_append.mp hc with h | h
      · have hp := iterate_call_pair evidence prefixes state callback c h
        have hset : visitedPair ((fiftyoneDegreesEvidenceIterate evidence prefixes state
            callback).evidence.items c.index) =
            (fiftyoneDegreesEvidenceIterate evidence prefixes state
              callback).evidence.items c.index := by
          rw [hp.2.2, hp.1, visitedPair_idem]
        rw [(iterateSeq_settled rest _ _ c.index hset).1, hp.2.2]
      · exact ih _ _ c h
  refine ⟨?_, ?_, hb calls evidence state, ?_⟩
  · intro j hj
    rcases hj with hj | hj
    · exact iterateSeq_parseCount_le_one calls evidence state j hj
    · rw [iterateSeq_parsed_never calls evidence state j hj]
      exact Nat.zero_le _
  · intro c hc ho hp
    exact iterateSeq_null_always calls evidence state c.index ho hp c hc rfl
  · intro c1 h1 c2 h2 heq
    rw [← hb calls evidence state c1 h1, ← hb calls evidence state c2 h2, heq]

theorem iterate_parse_at_most_once_witness :
    ((sampleStore.items 2).originalValue ≠ none ∨
      (sampleStore.items 2).parsedValue ≠ none) ∧
    parseCount (iterateSeq
      [(FIFTYONE_DEGREES_EVIDENCE_COOKIE, countingCallback),
       (allRealCategories, stoppingCallback),
       (allRealCategories, countingCallback)] sampleStore 0).2.2 2 ≤ 1 :=
  ⟨Or.inl (by decide),
    (iterate_parse_at_most_once
      [(FIFTYONE_DEGREES_EVIDENCE_COOKIE, countingCallback),
       (allRealCategories, stoppingCallback),
       (allRealCategories, countingCallback)] sampleStore 0).1 2 (Or.inl (by decide))⟩

/-- C6 fails as stated: a pair added with a `NULL` value to a fresh store is
parsed again at every visit. Two iterate calls run `parsePair` twice on slot 0,
since the parsedValue it leaves is `NULL` again. -/
theorem iterate_reparses_null_value :
    fiftyoneDegreesEvidenceCreate (some staleMemory) 1 =
      some (createLoop 1 { items := staleMemory, count := 0, capacity := 1 } 0) ∧
    parseCount (iterateSeq
      [(FIFTYONE_DEGREES_EVIDENCE_HTTP_HEADER_STRING, countingCallback),
       (FIFTYONE_DEGREES_EVIDENCE_HTTP_HEADER_STRING, countingCallback)]
      nullValueStore 0).2.2 0 = 2 :=
  ⟨rfl, by decide⟩

/-! ## The category mask -/

theorem visitedPair_category (pair : EvidenceKeyValuePair) :
    (visitedPair pair).category = pair.category := by
  unfold visitedPair
  split <;> rfl

/-- Every pair passed to the callback is below count and passes the category
test of iterate. -/
theorem iterate_call_matches {σ : Type} (evidence : EvidenceKeyValuePairArray)
    (prefixes : Nat) (state : σ) (callback : EvidenceIterateMethod σ) (c : IterateCall)
    (hc : c ∈ (fiftyoneDegreesEvidenceIterate evidence prefixes state callback).calls) :
    c.index < evidence.count ∧
    (evidence.items c.index).category &&& prefixes = (evidence.items c.index).category := by
  have hs := iterate_spec evidence prefixes state callback
  have hmem : c.index ∈ (fiftyoneDegreesEvidenceIterate evidence prefixes state
      callback).calls.map (fun c => c.index) := List.mem_map_of_mem _ hc
  rw [hs.1, walkCalls_index, matchingIndices_zero] at hmem
  have := List.mem_of_mem_take hmem
  simpa using this

/-- C7: with category mask 0, `fiftyoneDegreesEvidenceIterate` passes to the
callback only pairs whose category is `Ignore` (the value 0), for every
callback; the pairs passed are an initial run of the `Ignore` pairs in index
order, and all of them when the callback always returns `true`. -/
theorem iterate_mask_zero_visits_ignore_only {σ : Type}
    (evidence : EvidenceKeyValuePairArray) (state : σ)
    (callback : EvidenceIterateMethod σ) :
    (∀ c ∈ (fiftyoneDegreesEvidenceIterate evidence 0 state callback).calls,
      c.index < evidence.count ∧
      (evidence.items c.index).category = FIFTYONE_DEGREES_EVIDENCE_IGNORE ∧
      c.pair.category = FIFTYONE_DEGREES_EVIDENCE_IGNORE) ∧
    (fiftyoneDegreesEvidenceIterate evidence 0 state callback).calls.map
        (fun c => c.index) =
      ((List.range evidence.count).filter
        (fun j => decide ((evidence.items j).category =
          FIFTYONE_DEGREES_EVIDENCE_IGNORE))).take
        (fiftyoneDegreesEvidenceIterate evidence 0 state callback).count ∧
    ((∀ s p, (callback s p).2 = true) →
      (fiftyoneDegreesEvidenceIterate evidence 0 state callback).calls.map
          (fun c => c.index) =
        (List.range evidence.count).filter
          (fun j => decide ((evidence.items j).category =
            FIFTYONE_DEGREES_EVIDENCE_IGNORE))) := by
  have hs := iterate_spec evidence 0 state callback
  have hfilter : matchingIndices evidence.items evidence.count 0 0 =
      (List.range evidence.count).filter
        (fun j => decide ((evidence.items j).category =
          FIFTYONE_DEGREES_EVIDENCE_IGNORE)) := by
    rw [matchingIndices_zero]
    apply List.filter_congr
    intro j _
    simp only [Nat.and_zero, FIFTYONE_DEGREES_EVIDENCE_IGNORE]
    exact decide_eq_decide.mpr ⟨fun h => h.symm, fun h => h.symm⟩
  rw [hfilter] at hs
  refine ⟨?_, ?_, ?_⟩
  · intro c hc
    have hm := iterate_call_matches evidence 0 state callback c hc
    have hp := (iterate_call_pair evidence 0 state callback c hc).1
    have hcat : (evidence.items c.index).category = FIFTYONE_DEGREES_EVIDENCE_IGNORE := by
      have := hm.2
      rw [Nat.and_zero] at this
      exact this.symm
    exact ⟨hm.1, hcat, by rw [hp, visitedPair_category, hcat]⟩
  · rw [hs.1, hs.2.2.1]
    exact walkCalls_index _ _ _ _
  · intro hcb
    rw [hs.1, (walkCalls_always callback hcb evidence.items _ state).1, List.map_map]
    exact (List.map_congr_left (fun _ _ => rfl)).trans (List.map_id _)

theorem iterate_mask_zero_visits_ignore_only_witness :
    (∀ s p, (countingCallback s p).2 = true) ∧
    (fiftyoneDegreesEvidenceIterate sampleStore 0 0 countingCallback).calls.map
        (fun c => c.index) =
      (List.range sampleStore.count).filter
        (fun j => decide ((sampleStore.items j).category =
          FIFTYONE_DEGREES_EVIDENCE_IGNORE)) ∧
    (List.range sampleStore.count).filter
        (fun j => decide ((sampleStore.items j).category =
          FIFTYONE_DEGREES_EVIDENCE_IGNORE)) = [1] :=
  ⟨fun _ _ => rfl,
    (iterate_mask_zero_visits_ignore_only sampleStore 0 countingCallback).2.2
      (fun _ _ => rfl),
    by decide⟩

theorem strlen_eq_cString (s : List Char) : strlen s = (cString s).length := by
  induction s with
  | nil => rfl
  | cons c cs ih =>
    by_cases h : c.toNat = 0
    · simp [strlen, cString, h]
    · have : cString (c :: cs) = c :: cString cs := by simp [cString, h]
      rw [this]
      simp [strlen, h, ih]

theorem char_eq_of_toNat_eq (a b : Char) (h : a.toNat = b.toNat) : a = b := by
  rw [← Char.ofNat_toNat a, ← Char.ofNat_toNat b, h]

/-- For a text without NUL, `strncmp` over the length of the text finds no
difference exactly when the key begins with the text. -/
theorem strncmp_eq_zero_iff (p : List Char) (hp : ∀ c ∈ p, c.toNat ≠ 0) (key : List Char) :
    strncmp p key p.length = 0 ↔ p <+: cString key := by
  induction p generalizing key with
  | nil => simp [strncmp]
  | cons a p ih =>
    have ha : a.toNat ≠ 0 := hp a (List.mem_cons_self _ _)
    have hp2 : ∀ c ∈ p, c.toNat ≠ 0 := fun c hc => hp c (List.mem_cons_of_mem _ hc)
    cases key with
    | nil =>
      have hne : ((a.toNat : Int)) ≠ 0 := by exact_mod_cast ha
      simp [strncmp, headChar, cString, ha, hne]
    | cons b k =>
      by_cases hab : a.toNat = b.toNat
      · have heq : a = b := char_eq_of_toNat_eq a b hab
        subst heq
        have hc : cString (a :: k) = a :: cString k := by simp [cString, ha]
        rw [hc, List.prefix_cons_inj]
        simp only [List.length_cons, strncmp, headChar, ne_eq, not_true_eq_false, if_false,
          ha, List.tail_cons]
        exact ih hp2 k
      · have hne : ((a.toNat : Int)) - (b.toNat : Int) ≠ 0 := by
          intro h
          apply hab
          have : (a.toNat : Int) = (b.toNat : Int) := by omega
          exact_mod_cast this
        have hab2 : a ≠ b := fun h => hab (by rw [h])
        have hnp : ¬ (a :: p <+: cString (b :: k)) := by
          by_cases hb : b.toNat = 0
          · simp [cString, hb]
          · have hc : cString (b :: k) = b :: cString k := by simp [cString, hb]
            rw [hc, List.cons_prefix_cons]
            exact fun h => hab2 h.1
        simp [strncmp, headChar, hab, hne, hnp]

/-- The test made by the loop of `fiftyoneDegreesEvidenceMapPrefix` on an entry
of the table agrees with the match test of the spec. -/
theorem entry_test_eq (key : List Char) (e : EvidencePrefixMap) (he : e ∈ _map) :
    (e.prefixLength < strlen key ∧ strncmp e.prefixText.toList key e.prefixLength = 0) ↔
      entryMatches (cString key) e = true := by
  have hlen : e.prefixLength = e.prefixText.toList.length ∧
      ∀ c ∈ e.prefixText.toList, c.toNat ≠ 0 := by
    simp only [_map, List.mem_cons, List.mem_singleton, List.not_mem_nil, or_false] at he
    rcases he with h | h | h | h <;> subst h <;> decide
  rw [hlen.1, strncmp_eq_zero_iff _ hlen.2, strlen_eq_cString]
  simp [entryMatches]

theorem mapPrefixLoop_eq_find (key : List Char) (fuel i : Nat)
    (hfuel : _map.length - i ≤ fuel) :
    mapPrefixLoop key (strlen key) fuel i =
      (_map.drop i).find? (entryMatches (cString key)) := by
  induction fuel generalizing i with
  | zero =>
    have : _map.length ≤ i := by omega
    simp [mapPrefixLoop, List.drop_eq_nil_of_le this]
  | succ n ih =>
    unfold mapPrefixLoop
    by_cases hi : i < _map.length
    · rw [dif_pos hi, List.drop_eq_getElem_cons hi, List.find?_cons]
      have htest := entry_test_eq key _map[i] (List.getElem_mem _)
      by_cases hm : entryMatches (cString key) _map[i] = true
      · simp only [hm]
        rw [if_pos (htest.mpr hm)]
      · have hm2 : entryMatches (cString key) _map[i] = false := by simpa using hm
        simp only [hm2]
        rw [if_neg (fun h => hm (htest.mp h))]
        exact ih (i + 1) (by omega)
    · rw [dif_neg hi, List.drop_eq_nil_of_le (by omega)]
      rfl

/-- C9: for every key, `fiftyoneDegreesEvidenceMapPrefix` returns the first
entry of the table ("server." -> Server, "header." -> HttpHeaderString,
"query." -> Query, "cookie." -> Cookie) whose prefix is strictly shorter than
the key and is a character-exact, case-sensitive prefix of the key, and it
returns `NULL` exactly when no entry is such; a key equal to a prefix
("header."), a key differing in case ("Header.x") and the empty key give
`NULL`. -/
theorem mapPrefix_first_match (key : String) :
    _map.map (fun e => (e.prefixText, e.prefixEnum)) =
      [("server.", FIFTYONE_DEGREES_EVIDENCE_SERVER),
       ("header.", FIFTYONE_DEGREES_EVIDENCE_HTTP_HEADER_STRING),
       ("query.", FIFTYONE_DEGREES_EVIDENCE_QUERY),
       ("cookie.", FIFTYONE_DEGREES_EVIDENCE_COOKIE)] ∧
    fiftyoneDegreesEvidenceMapPrefix key =
      _map.find? (fun e =>
        decide (e.prefixText.toList.length < (cString key.toList).length) &&
          e.prefixText.toList.isPrefixOf (cString key.toList)) ∧
    (fiftyoneDegreesEvidenceMapPrefix key = none ↔
      ∀ e ∈ _map, ¬ (e.prefixText.toList.length < (cString key.toList).length ∧
        e.prefixText.toList <+: cString key.toList)) ∧
    fiftyoneDegreesEvidenceMapPrefix "header." = none ∧
    fiftyoneDegreesEvidenceMapPrefix "Header.x" = none ∧
    fiftyoneDegreesEvidenceMapPrefix "" = none := by
  have hfind : fiftyoneDegreesEvidenceMapPrefix key =
      _map.find? (entryMatches (cString key.toList)) := by
    have := mapPrefixLoop_eq_find key.toList _map.length 0 (by omega)
    simpa [fiftyoneDegreesEvidenceMapPrefix] using this
  refine ⟨rfl, hfind, ?_, by decide, by decide, by decide⟩
  rw [hfind, List.find?_eq_none]
  constructor
  · intro h e he hmatch
    apply h e he
    simpa [entryMatches] using hmatch
  · intro h e he hmatch
    apply h e he
    simpa [entryMatches] using hmatch

/-! ## Sequences of additions followed by an iteration -/

theorem addStrings_count (inputs : List (Nat × Option String × Option String))
    (evidence : EvidenceKeyValuePairArray) (h : evidence.count ≤ evidence.capacity) :
    (addStrings inputs evidence).2.count =
        min (evidence.count + inputs.length) evidence.capacity ∧
    (addStrings inputs evidence).2.capacity = evidence.capacity := by
  induction inputs generalizing evidence with
  | nil => simp [addStrings, h]
  | cons input rest ih =>
    have hinv := addString_invariant evidence input.1 input.2.1 input.2.2 h
    have := ih _ hinv.1
    simp only [addStrings, List.length_cons]
    rw [this.1, this.2, hinv.2]
    refine ⟨?_, rfl⟩
    unfold fiftyoneDegreesEvidenceAddString
    split
    · simp only; omega
    · simp only; omega

theorem addStrings_results (inputs : List (Nat × Option String × Option String))
    (evidence : EvidenceKeyValuePairArray) (h : evidence.count ≤ evidence.capacity) :
    (addStrings inputs evidence).1 =
      (List.range inputs.length).map
        (fun i => if evidence.count + i < evidence.capacity then some (evidence.count + i)
          else none) := by
  induction inputs generalizing evidence with
  | nil => simp [addStrings]
  | cons input rest ih =>
    have hinv := addString_invariant evidence input.1 input.2.1 input.2.2 h
    simp only [addStrings, List.length_cons]
    rw [ih _ hinv.1, List.range_succ_eq_map, List.map_cons, List.map_map]
    by_cases hroom : evidence.count < evidence.capacity
    · simp only [fiftyoneDegreesEvidenceAddString, hroom, if_true, Nat.add_zero,
        List.cons.injEq, true_and]
      apply List.map_congr_left
      intro i _
      simp only [Function.comp, Nat.succ_eq_add_one]
      have e1 : evidence.count + 1 + i = evidence.count + (i + 1) := by omega
      rw [e1]
    · have hfull : ∀ i, ¬ evidence.count + i < evidence.capacity := fun i => by omega
      simp only [fiftyoneDegreesEvidenceAddString, hroom, if_false, hfull, Nat.add_zero,
        List.cons.injEq, true_and]
      apply List.map_congr_left
      intro i _
      simp [hfull]

theorem addStrings_items_below (inputs : List (Nat × Option String × Option String))
    (evidence : EvidenceKeyValuePairArray) (j : Nat) (hj : j < evidence.count) :
    (addStrings inputs evidence).2.items j = evidence.items j := by
  induction inputs generalizing evidence with
  | nil => rfl
  | cons input rest ih =>
    simp only [addStrings]
    by_cases hroom : evidence.count < evidence.capacity
    · rw [ih _ (by simp only [fiftyoneDegreesEvidenceAddString, hroom, if_true]; omega)]
      simp only [fiftyoneDegreesEvidenceAddString, hroom, if_true]
      exact Function.update_noteq (by omega) _ _
    · rw [ih _ (by simpa only [fiftyoneDegreesEvidenceAddString, hroom, if_false] using hj)]
      simp only [fiftyoneDegreesEvidenceAddString, hroom, if_false]

/-- The slot of each input that found room holds that input. -/
theorem addStrings_items_added (inputs : List (Nat × Option String × Option String))
    (evidence : EvidenceKeyValuePairArray) (i : Nat)
    (x : Nat × Option String × Option String) (hx : inputs[i]? = some x)
    (hroom : evidence.count + i < evidence.capacity) :
    (addStrings inputs evidence).2.items (evidence.count + i) =
      { category := x.1, field := x.2.1, originalValue := x.2.2, parsedValue := none } := by
  induction inputs generalizing evidence i with
  | nil => simp at hx
  | cons input rest ih =>
    have hlt : evidence.count < evidence.capacity := by omega
    simp only [addStrings]
    cases i with
    | zero =>
      simp only [List.getElem?_cons_zero, Option.some.injEq] at hx
      subst hx
      rw [Nat.add_zero, addStrings_items_below _ _ _
        (by simp only [fiftyoneDegreesEvidenceAddString, hlt, if_true]; omega)]
      simp [fiftyoneDegreesEvidenceAddString, hlt]
    | succ k =>
      simp only [List.getElem?_cons_succ] at hx
      have := ih (fiftyoneDegreesEvidenceAddString evidence input.1 input.2.1 input.2.2).2 k hx
        (by simp only [fiftyoneDegreesEvidenceAddString, hlt, if_true]; omega)
      have hc : (fiftyoneDegreesEvidenceAddString evidence input.1 input.2.1 input.2.2).2.count =
          evidence.count + 1 := by
        simp only [fiftyoneDegreesEvidenceAddString, hlt, if_true]
      rw [hc] at this
      have e1 : evidence.count + (k + 1) = evidence.count + 1 + k := by omega
      rw [e1]
      exact this

/-- C11: the inputs added one after another to a freshly created store of
capacity c leave the count at min(n, c); exactly the first min(n, c) calls
succeed (the i-th call returns slot i when i < c and `NULL` otherwise); and a
following iterate, with a callback that always returns `true` and a mask that
contains every added category, passes the callback exactly the first min(n, c)
inputs, in the order they were added, with category, field and originalValue
as given. -/
theorem addStrings_then_iterate {σ : Type} (slots : Nat → EvidenceKeyValuePair)
    (capacity : Nat) (inputs : List (Nat × Option String × Option String))
    (prefixes : Nat) (state : σ) (callback : EvidenceIterateMethod σ)
    (hcb : ∀ s p, (callback s p).2 = true)
    (hmask : ∀ x ∈ inputs, x.1 &&& prefixes = x.1) :
    ∃ evidence, fiftyoneDegreesEvidenceCreate (some slots) capacity = some evidence ∧
      (addStrings inputs evidence).2.count = min inputs.length capacity ∧
      (addStrings inputs evidence).1 =
        (List.range inputs.length).map (fun i => if i < capacity then some i else none) ∧
      (fiftyoneDegreesEvidenceIterate (addStrings inputs evidence).2 prefixes state
        callback).count = min inputs.length capacity ∧
      (fiftyoneDegreesEvidenceIterate (addStrings inputs evidence).2 prefixes state
        callback).calls.map (fun c => c.index) =
          List.range (min inputs.length capacity) ∧
      (fiftyoneDegreesEvidenceIterate (addStrings inputs evidence).2 prefixes state
        callback).calls.map
          (fun c => (c.pair.category, c.pair.field, c.pair.originalValue)) =
          inputs.take capacity := by
  refine ⟨_, rfl, ?_⟩
  generalize hev : createLoop
    ({ items := slots, count := 0, capacity := capacity } : EvidenceKeyValuePairArray).capacity
    { items := slots, count := 0, capacity := capacity } 0 = evidence
  have hc0 : evidence.count = 0 := by rw [← hev, createLoop_count]
  have hcap : evidence.capacity = capacity := by rw [← hev, createLoop_capacity]
  have hle : evidence.count ≤ evidence.capacity := by omega
  have hcount : (addStrings inputs evidence).2.count = min inputs.length capacity := by
    rw [(addStrings_count inputs evidence hle).1, hc0, hcap, Nat.zero_add]
  have hres := addStrings_results inputs evidence hle
  simp only [hc0, hcap, Nat.zero_add] at hres
  -- the slot of every input that found room
  have hitem : ∀ i (hi : i < min inputs.length capacity),
      (addStrings inputs evidence).2.items i =
        { category := (inputs.get ⟨i, by omega⟩).1, field := (inputs.get ⟨i, by omega⟩).2.1,
          originalValue := (inputs.get ⟨i, by omega⟩).2.2, parsedValue := none } := by
    intro i hi
    have hin : i < inputs.length := by omega
    have := addStrings_items_added inputs evidence i (inputs.get ⟨i, hin⟩)
      (by simp [List.getElem?_eq_getElem hin]) (by omega)
    rw [hc0, Nat.zero_add] at this
    exact this
  have hs := iterate_spec (addStrings inputs evidence).2 prefixes state callback
  have hw := walkCalls_always callback hcb (addStrings inputs evidence).2.items
    (matchingIndices (addStrings inputs evidence).2.items (addStrings inputs evidence).2.count
      prefixes 0) state
  have hall : matchingIndices (addStrings inputs evidence).2.items
      (addStrings inputs evidence).2.count prefixes 0 =
      List.range (min inputs.length capacity) := by
    rw [matchingIndices_zero, hcount, List.filter_eq_self]
    intro j hj
    have hj2 : j < min inputs.length capacity := List.mem_range.mp hj
    rw [hitem j hj2]
    exact decide_eq_true (hmask _ (List.get_mem _ _ _))
  rw [hall] at hs hw
  have hcalls := hs.1.trans hw.1
  refine ⟨hcount, hres, ?_, ?_, ?_⟩
  · rw [hs.2.2.1, hw.1, List.length_map, List.length_range]
  · rw [hcalls, List.map_map]
    exact (List.map_congr_left (fun _ _ => rfl)).trans (List.map_id _)
  · rw [hcalls, List.map_map]
    apply List.ext_getElem
    · simp [Nat.min_comm]
    · intro i h1 h2
      have hi : i < min inputs.length capacity := by simpa using h1
      simp only [List.getElem_map, List.getElem_range, Function.comp, List.getElem_take]
      rw [hitem i hi]
      simp [visitedPair, List.get_eq_getElem]

theorem addStrings_then_iterate_witness :
    (∀ s p, (countingCallback s p).2 = true) ∧
    (∀ x ∈ [(FIFTYONE_DEGREES_EVIDENCE_QUERY, some "q", some "1"),
            (FIFTYONE_DEGREES_EVIDENCE_COOKIE, some "c", some "2"),
            (FIFTYONE_DEGREES_EVIDENCE_QUERY, some "r", some "3")],
      x.1 &&& allRealCategories = x.1) ∧
    ∃ evidence, fiftyoneDegreesEvidenceCreate (some staleMemory) 2 = some evidence ∧
      (addStrings [(FIFTYONE_DEGREES_EVIDENCE_QUERY, some "q", some "1"),
            (FIFTYONE_DEGREES_EVIDENCE_COOKIE, some "c", some "2"),
            (FIFTYONE_DEGREES_EVIDENCE_QUERY, some "r", some "3")] evidence).2.count =
        min 3 2 ∧
      (fiftyoneDegreesEvidenceIterate
        (addStrings [(FIFTYONE_DEGREES_EVIDENCE_QUERY, some "q", some "1"),
            (FIFTYONE_DEGREES_EVIDENCE_COOKIE, some "c", some "2"),
            (FIFTYONE_DEGREES_EVIDENCE_QUERY, some "r", some "3")] evidence).2
        allRealCategories 0 countingCallback).calls.map
          (fun c => (c.pair.category, c.pair.field, c.pair.originalValue)) =
        [(FIFTYONE_DEGREES_EVIDENCE_QUERY, some "q", some "1"),
         (FIFTYONE_DEGREES_EVIDENCE_COOKIE, some "c", some "2")] := by
  refine ⟨fun _ _ => rfl, by decide, ?_⟩
  obtain ⟨evidence, h1, h2, _, _, _, h6⟩ :=
    addStrings_then_iterate staleMemory 2
      [(FIFTYONE_DEGREES_EVIDENCE_QUERY, some "q", some "1"),
       (FIFTYONE_DEGREES_EVIDENCE_COOKIE, some "c", some "2"),
       (FIFTYONE_DEGREES_EVIDENCE_QUERY, some "r", some "3")]
      allRealCategories 0 countingCallback (fun _ _ => rfl) (by decide)
  exact ⟨evidence, h1, h2, h6⟩

/-! ## The parse step and the frame of iterate -/

/-- C17: the parse step is the identity transform for every category, the
IP-address headers included: `parsePair` sets parsedValue to originalValue
whatever the category, and each pair iterate passes to the callback whose
parsedValue was `NULL` before the call has parsedValue equal to its
originalValue when the callback sees it and keeps it after iterate returns. -/
theorem parse_is_identity {σ : Type} (evidence : EvidenceKeyValuePairArray)
    (prefixes : Nat) (state : σ) (callback : EvidenceIterateMethod σ) :
    (∀ (store : EvidenceKeyValuePairArray) (pair : EvidenceKeyValuePair),
      (parsePair store pair).parsedValue = pair.originalValue ∧
      (parsePair store pair).originalValue = pair.originalValue ∧
      (parsePair store pair).category = pair.category ∧
      (parsePair store pair).field = pair.field) ∧
    (∀ c ∈ (fiftyoneDegreesEvidenceIterate evidence prefixes state callback).calls,
      (evidence.items c.index).parsedValue = none →
      c.parsed = true ∧
      c.pair.parsedValue = c.pair.originalValue ∧
      c.pair.originalValue = (evidence.items c.index).originalValue ∧
      ((fiftyoneDegreesEvidenceIterate evidence prefixes state callback).evidence.items
        c.index).parsedValue = (evidence.items c.index).originalValue) := by
  refine ⟨fun _ _ => ⟨rfl, rfl, rfl, rfl⟩, ?_⟩
  intro c hc hnone
  have hp := iterate_call_pair evidence prefixes state callback c hc
  have hv : visitedPair (evidence.items c.index) =
      { evidence.items c.index with parsedValue := (evidence.items c.index).originalValue } := by
    simp [visitedPair, hnone]
  refine ⟨?_, ?_, ?_, ?_⟩
  · rw [hp.2.1, hnone]; rfl
  · rw [hp.1, hv]
  · rw [hp.1, hv]
  · rw [hp.2.2, hp.1, hv]

theorem parse_is_identity_witness :
    (sampleStore.items 2).parsedValue = none ∧
    ∀ c ∈ (fiftyoneDegreesEvidenceIterate sampleStore FIFTYONE_DEGREES_EVIDENCE_COOKIE 0
        countingCallback).calls,
      c.index = 2 → c.pair.parsedValue = c.pair.originalValue :=
  ⟨rfl, fun c hc h2 =>
    ((parse_is_identity sampleStore FIFTYONE_DEGREES_EVIDENCE_COOKIE 0
      countingCallback).2 c hc (by rw [h2]; rfl)).2.1⟩

/-- C19: iterate changes nothing in the store except the parsedValue of pairs
it passes to the callback: count and capacity are as before, every pair keeps
its field, originalValue and category, and every pair that was not passed to
the callback is as it was, parsedValue included. -/
theorem iterate_frame {σ : Type} (evidence : EvidenceKeyValuePairArray)
    (prefixes : Nat) (state : σ) (callback : EvidenceIterateMethod σ) :
    (fiftyoneDegreesEvidenceIterate evidence prefixes state callback).evidence.count =
      evidence.count ∧
    (fiftyoneDegreesEvidenceIterate evidence prefixes state callback).evidence.capacity =
      evidence.capacity ∧
    (∀ j,
      ((fiftyoneDegreesEvidenceIterate evidence prefixes state callback).evidence.items
        j).field = (evidence.items j).field ∧
      ((fiftyoneDegreesEvidenceIterate evidence prefixes state callback).evidence.items
        j).originalValue = (evidence.items j).originalValue ∧
      ((fiftyoneDegreesEvidenceIterate evidence prefixes state callback).evidence.items
        j).category = (evidence.items j).category) ∧
    (∀ j,
      j ∉ (fiftyoneDegreesEvidenceIterate evidence prefixes state callback).calls.map
        (fun c => c.index) →
      (fiftyoneDegreesEvidenceIterate evidence prefixes state callback).evidence.items j =
        evidence.items j) := by
  have hs := iterate_spec evidence prefixes state callback
  refine ⟨hs.2.2.2.1, hs.2.2.2.2.1, ?_, ?_⟩
  · intro j
    rcases iterate_items_cases evidence prefixes state callback j with h | h
    · rw [h]; exact ⟨rfl, rfl, rfl⟩
    · rw [h]
      unfold visitedPair
      split
      · exact ⟨rfl, rfl, rfl⟩
      · exact ⟨rfl, rfl, rfl⟩
  · intro j hj
    rw [hs.2.2.2.2.2 j, if_neg]
    rw [← hs.1]; exact hj

theorem iterate_frame_witness :
    0 ∉ (fiftyoneDegreesEvidenceIterate sampleStore FIFTYONE_DEGREES_EVIDENCE_COOKIE 0
        countingCallback).calls.map (fun c => c.index) ∧
    (fiftyoneDegreesEvidenceIterate sampleStore FIFTYONE_DEGREES_EVIDENCE_COOKIE 0
        countingCallback).evidence.items 0 = sampleStore.items 0 :=
  ⟨by decide,
    (iterate_frame sampleStore FIFTYONE_DEGREES_EVIDENCE_COOKIE 0 countingCallback).2.2.2 0
      (by decide)⟩

/-! ## Monotonicity in the mask -/

theorem categoryInMask_mono (m1 m2 : Nat) (hsub : m1 &&& m2 = m1)
    (pair : EvidenceKeyValuePair) (h : pair.category &&& m1 = pair.category) :
    pair.category &&& m2 = pair.category := by
  calc pair.category &&& m2 = (pair.category &&& m1) &&& m2 := by rw [h]
    _ = pair.category &&& (m1 &&& m2) := Nat.land_assoc _ _ _
    _ = pair.category := by rw [hsub, h]

/-- C20: iterate is monotone in the mask. For two masks with
`(m1 & m2) == m1` and a callback that always returns `true`, the pairs visited
under m1 are a subsequence of the pairs visited under m2 (slots and pairs
alike), and the count returned for m1 is at most the count returned for m2,
which is at most the store's count. -/
theorem iterate_mask_monotone {σ : Type} (evidence : EvidenceKeyValuePairArray)
    (m1 m2 : Nat) (state : σ) (callback : EvidenceIterateMethod σ)
    (hcb : ∀ s p, (callback s p).2 = true) (hsub : m1 &&& m2 = m1) :
    List.Sublist
      ((fiftyoneDegreesEvidenceIterate evidence m1 state callback).calls.map
        (fun c => c.index))
      ((fiftyoneDegreesEvidenceIterate evidence m2 state callback).calls.map
        (fun c => c.index)) ∧
    List.Sublist
      ((fiftyoneDegreesEvidenceIterate evidence m1 state callback).calls.map
        (fun c => c.pair))
      ((fiftyoneDegreesEvidenceIterate evidence m2 state callback).calls.map
        (fun c => c.pair)) ∧
    (fiftyoneDegreesEvidenceIterate evidence m1 state callback).count ≤
      (fiftyoneDegreesEvidenceIterate evidence m2 state callback).count ∧
    (fiftyoneDegreesEvidenceIterate evidence m2 state callback).count ≤ evidence.count := by
  have key : ∀ m : Nat,
      (fiftyoneDegreesEvidenceIterate evidence m state callback).calls =
        ((List.range evidence.count).filter
          (fun j => decide ((evidence.items j).category &&& m =
            (evidence.items j).category))).map
          (fun j => { index := j, pair := visitedPair (evidence.items j),
                      parsed := decide ((evidence.items j).parsedValue = none),
                      result := true }) ∧
      (fiftyoneDegreesEvidenceIterate evidence m state callback).count =
        ((List.range evidence.count).filter
          (fun j => decide ((evidence.items j).category &&& m =
            (evidence.items j).category))).length := by
    intro m
    have hs := iterate_spec evidence m state callback
    have hw := walkCalls_always callback hcb evidence.items
      (matchingIndices evidence.items evidence.count m 0) state
    rw [matchingIndices_zero] at hs hw
    exact ⟨hs.1.trans hw.1, by rw [hs.2.2.1, hw.1, List.length_map]⟩
  have hfilter : List.Sublist
      ((List.range evidence.count).filter
        (fun j => decide ((evidence.items j).category &&& m1 =
          (evidence.items j).category)))
      ((List.range evidence.count).filter
        (fun j => decide ((evidence.items j).category &&& m2 =
          (evidence.items j).category))) := by
    apply List.monotone_filter_right
    intro j hj
    simp only [decide_eq_true_eq] at hj ⊢
    exact categoryInMask_mono m1 m2 hsub _ hj
  refine ⟨?_, ?_, ?_, ?_⟩
  · rw [(key m1).1, (key m2).1, List.map_map, List.map_map]
    exact hfilter.map _
  · rw [(key m1).1, (key m2).1, List.map_map, List.map_map]
    exact hfilter.map _
  · rw [(key m1).2, (key m2).2]
    exact hfilter.length_le
  · rw [(key m2).2]
    exact (List.length_filter_le _ _).trans (le_of_eq (List.length_range _))

theorem iterate_mask_monotone_witness :
    (∀ s p, (countingCallback s p).2 = true) ∧
    FIFTYONE_DEGREES_EVIDENCE_COOKIE &&& allRealCategories =
      FIFTYONE_DEGREES_EVIDENCE_COOKIE ∧
    (fiftyoneDegreesEvidenceIterate sampleStore FIFTYONE_DEGREES_EVIDENCE_COOKIE 0
        countingCallback).count ≤
      (fiftyoneDegreesEvidenceIterate sampleStore allRealCategories 0
        countingCallback).count :=
  ⟨fun _ _ => rfl, by decide,
    (iterate_mask_monotone sampleStore FIFTYONE_DEGREES_EVIDENCE_COOKIE allRealCategories 0
      countingCallback (fun _ _ => rfl) (by decide)).2.2.1⟩

/-! ## The order of the prefix table -/

theorem mapPrefixLoopIn_map (key : List Char) (length fuel i : Nat) :
    mapPrefixLoopIn _map key length fuel i = mapPrefixLoop key length fuel i := by
  induction fuel generalizing i with
  | zero => rfl
  | succ n ih =>
    unfold mapPrefixLoopIn mapPrefixLoop
    split
    · simp only [ih]
    · rfl

theorem mapPrefixLoopIn_eq_find (table : List EvidencePrefixMap)
    (htable : ∀ e ∈ table, e ∈ _map) (key : List Char) (fuel i : Nat)
    (hfuel : table.length - i ≤ fuel) :
    mapPrefixLoopIn table key (strlen key) fuel i =
      (table.drop i).find? (entryMatches (cString key)) := by
  induction fuel generalizing i with
  | zero =>
    have : table.length ≤ i := by omega
    simp [mapPrefixLoopIn, List.drop_eq_nil_of_le this]
  | succ n ih =>
    unfold mapPrefixLoopIn
    by_cases hi : i < table.length
    · rw [dif_pos hi, List.drop_eq_getElem_cons hi, List.find?_cons]
      have htest := entry_test_eq key table[i] (htable _ (List.getElem_mem _))
      by_cases hm : entryMatches (cString key) table[i] = true
      · simp only [hm]
        rw [if_pos (htest.mpr hm)]
      · have hm2 : entryMatches (cString key) table[i] = false := by simpa using hm
        simp only [hm2]
        rw [if_neg (fun h => hm (htest.mp h))]
        exact ih (i + 1) (by omega)
    · rw [dif_neg hi, List.drop_eq_nil_of_le (by omega)]
      rfl

/-- At most one entry of `_map` has a prefix the key begins with. -/
theorem map_prefixes_exclusive (key : List Char) (e1 e2 : EvidencePrefixMap)
    (h1 : e1 ∈ _map) (h2 : e2 ∈ _map)
    (hp1 : e1.prefixText.toList <+: key) (hp2 : e2.prefixText.toList <+: key) :
    e1 = e2 := by
  have hor : e1.prefixText.toList <+: e2.prefixText.toList ∨
      e2.prefixText.toList <+: e1.prefixText.toList :=
    List.prefix_or_prefix_of_prefix hp1 hp2
  simp only [_map, List.mem_cons, List.mem_singleton, List.not_mem_nil, or_false] at h1 h2
  rcases h1 with h | h | h | h <;> rcases h2 with g | g | g | g <;> subst h <;> subst g <;>
    first
    | rfl
    | (exfalso; revert hor; decide)

/-- In a list with at most one element satisfying the test, the first such
element does not depend on the order of the list. -/
theorem find_perm_of_unique {α : Type} (p : α → Bool) (l1 l2 : List α)
    (hperm : l1.Perm l2) (huniq : ∀ a ∈ l1, ∀ b ∈ l1, p a = true → p b = true → a = b) :
    l1.find? p = l2.find? p := by
  cases h1 : l1.find? p with
  | none =>
    rw [List.find?_eq_none] at h1
    symm
    rw [List.find?_eq_none]
    intro x hx
    exact h1 x (hperm.mem_iff.mpr hx)
  | some a =>
    have ha := List.find?_some h1
    have hmem := List.mem_of_find?_eq_some h1
    cases h2 : l2.find? p with
    | none =>
      rw [List.find?_eq_none] at h2
      exact absurd ha (h2 a (hperm.mem_iff.mp hmem))
    | some b =>
      have hb := List.find?_some h2
      have hmemb := hperm.mem_iff.mpr (List.mem_of_find?_eq_some h2)
      rw [huniq a hmem b hmemb ha hb]

/-- C18: the prefixes of `_map` ("server.", "header.", "query.", "cookie.")
are mutually exclusive: for every key at most one entry matches it, so the
lookup returns the same entry, hence the same category, for every permutation
of the table's entries. -/
theorem mapPrefix_order_immaterial (key : String) :
    (∀ e1 ∈ _map, ∀ e2 ∈ _map,
      (e1.prefixText.toList.length < (cString key.toList).length ∧
        e1.prefixText.toList <+: cString key.toList) →
      (e2.prefixText.toList.length < (cString key.toList).length ∧
        e2.prefixText.toList <+: cString key.toList) →
      e1 = e2) ∧
    mapPrefixIn _map key = fiftyoneDegreesEvidenceMapPrefix key ∧
    (∀ table : List EvidencePrefixMap, table.Perm _map →
      mapPrefixIn table key = fiftyoneDegreesEvidenceMapPrefix key ∧
      (mapPrefixIn table key).map (fun e => e.prefixEnum) =
        (fiftyoneDegreesEvidenceMapPrefix key).map (fun e => e.prefixEnum)) := by
  have hsame : mapPrefixIn _map key = fiftyoneDegreesEvidenceMapPrefix key :=
    mapPrefixLoopIn_map _ _ _ _
  have hexcl : ∀ e1 ∈ _map, ∀ e2 ∈ _map,
      entryMatches (cString key.toList) e1 = true →
      entryMatches (cString key.toList) e2 = true → e1 = e2 := by
    intro e1 h1 e2 h2 m1 m2
    simp only [entryMatches, Bool.and_eq_true, decide_eq_true_eq,
      List.isPrefixOf_iff_prefix] at m1 m2
    exact map_prefixes_exclusive _ e1 e2 h1 h2 m1.2 m2.2
  have hperm : ∀ table : List EvidencePrefixMap, table.Perm _map →
      mapPrefixIn table key = fiftyoneDegreesEvidenceMapPrefix key := by
    intro table hp
    have h1 : mapPrefixIn table key = table.find? (entryMatches (cString key.toList)) := by
      have := mapPrefixLoopIn_eq_find table (fun e he => hp.mem_iff.mp he) key.toList
        table.length 0 (by omega)
      simpa [mapPrefixIn] using this
    have h2 : fiftyoneDegreesEvidenceMapPrefix key =
        _map.find? (entryMatches (cString key.toList)) := by
      have := mapPrefixLoop_eq_find key.toList _map.length 0 (by omega)
      simpa [fiftyoneDegreesEvidenceMapPrefix] using this
    rw [h1, h2]
    exact (find_perm_of_unique _ _ _ hp.symm hexcl).symm
  refine ⟨?_, hsame, fun table hp => ⟨hperm table hp, by rw [hperm table hp]⟩⟩
  intro e1 h1 e2 h2 m1 m2
  exact map_prefixes_exclusive _ e1 e2 h1 h2 m1.2 m2.2

theorem mapPrefix_order_immaterial_witness :
    _map.reverse.Perm _map ∧
    mapPrefixIn _map.reverse "query.id" = fiftyoneDegreesEvidenceMapPrefix "query.id" ∧
    (fiftyoneDegreesEvidenceMapPrefix "query.id").map (fun e => e.prefixEnum) =
      some FIFTYONE_DEGREES_EVIDENCE_QUERY :=
  ⟨List.reverse_perm _,
    ((mapPrefix_order_immaterial "query.id").2.2 _map.reverse (List.reverse_perm _)).1,
    by decide⟩

/-! ## Required properties: lemmas on the steps of create -/

theorem dedupNames_map (names : List String) :
    (dedupNames names).map foldCase = (names.map foldCase).dedup := by
  induction names with
  | nil => rfl
  | cons n ns ih =>
    by_cases h : foldCase n ∈ ns.map foldCase
    · simp only [dedupNames, h, if_true, List.map_cons]
      rw [List.dedup_cons_of_mem h, ih]
    · simp only [dedupNames, h, if_false, List.map_cons]
      rw [List.dedup_cons_of_not_mem h, ih]

/-- What the lookup finds is a catalog entry equal to the name when case is
ignored. -/
theorem catalogLookupFrom_some (name : String) (catalog : List String) (index : Nat)
    (p : PropertyAvailable) (h : catalogLookupFrom name catalog index = some p) :
    p.name ∈ catalog ∧ foldCase p.name = foldCase name := by
  induction catalog generalizing index with
  | nil => simp [catalogLookupFrom] at h
  | cons entry entries ih =>
    by_cases he : foldCase entry = foldCase name
    · simp only [catalogLookupFrom, he, if_true, Option.some.injEq] at h
      subst h
      exact ⟨List.mem_cons_self _ _, he⟩
    · simp only [catalogLookupFrom, he, if_false] at h
      have := ih _ h
      exact ⟨List.mem_cons_of_mem _ this.1, this.2⟩

/-- The lookup fails exactly for the names that are in the catalog in no
spelling. -/
theorem catalogLookupFrom_none (name : String) (catalog : List String) (index : Nat) :
    catalogLookupFrom name catalog index = none ↔ foldCase name ∉ catalog.map foldCase := by
  induction catalog generalizing index with
  | nil => simp [catalogLookupFrom]
  | cons entry entries ih =>
    by_cases he : foldCase entry = foldCase name
    · simp [catalogLookupFrom, he]
    · have he2 : ¬ foldCase name = foldCase entry := fun h => he h.symm
      simp [catalogLookupFrom, he, he2, ih]

/-- The lookup depends on the name only through its folded form. -/
theorem catalogLookupFrom_congr (n m : String) (h : foldCase n = foldCase m)
    (catalog : List String) (index : Nat) :
    catalogLookupFrom n catalog index = catalogLookupFrom m catalog index := by
  induction catalog generalizing index with
  | nil => rfl
  | cons entry entries ih =>
    simp only [catalogLookupFrom, h, ih]

/-- The folded names of the resolved entries are the folded requested names
that are in the catalog. -/
theorem filterMap_lookup_keys (catalog : List String) (names : List String) :
    (names.filterMap (catalogLookup catalog)).map (fun p => foldCase p.name) =
      (names.map foldCase).filter (fun k => decide (k ∈ catalog.map foldCase)) := by
  induction names with
  | nil => rfl
  | cons n ns ih =>
    cases hl : catalogLookup catalog n with
    | none =>
      have hnot : foldCase n ∉ catalog.map foldCase :=
        (catalogLookupFrom_none n catalog 0).mp hl
      rw [List.filterMap_cons_none hl, ih, List.map_cons, List.filter_cons_of_neg]
      simpa using hnot
    | some p =>
      have hin : foldCase n ∈ catalog.map foldCase := by
        by_contra hnot
        have := (catalogLookupFrom_none n catalog 0).mpr hnot
        rw [catalogLookup] at hl
        rw [hl] at this
        exact Option.noConfusion this
      have hkey := (catalogLookupFrom_some n catalog 0 p hl).2
      rw [List.filterMap_cons_some hl, List.map_cons, ih, List.map_cons,
        List.filter_cons_of_pos (by simpa using hin), hkey]

/-- Every resolved entry is what the lookup gives for its own name. -/
theorem filterMap_lookup_self (catalog : List String) (names : List String)
    (p : PropertyAvailable) (hp : p ∈ names.filterMap (catalogLookup catalog)) :
    catalogLookup catalog p.name = some p ∧ p.name ∈ catalog := by
  obtain ⟨n, _, hn⟩ := List.mem_filterMap.mp hp
  have h := catalogLookupFrom_some n catalog 0 p hn
  refine ⟨?_, h.1⟩
  rw [catalogLookup, catalogLookupFrom_congr p.name n h.2]
  exact hn

theorem allPropertiesFrom_names (catalog : List String) (index : Nat) :
    (allPropertiesFrom catalog index).map (fun p => p.name) = catalog := by
  induction catalog generalizing index with
  | nil => rfl
  | cons entry entries ih => simp [allPropertiesFrom, ih]

theorem allPropertiesFrom_length (catalog : List String) (index : Nat) :
    (allPropertiesFrom catalog index).length = catalog.length := by
  rw [← List.length_map (allPropertiesFrom catalog index) (fun p => p.name),
    allPropertiesFrom_names]

theorem allPropertiesFrom_index (catalog : List String) (index j : Nat)
    (h : j < (allPropertiesFrom catalog index).length) :
    ((allPropertiesFrom catalog index).get ⟨j, h⟩).propertyIndex = index + j := by
  induction catalog generalizing index j with
  | nil => simp [allPropertiesFrom] at h
  | cons entry entries ih =>
    cases j with
    | zero => simp [allPropertiesFrom]
    | succ k =>
      simp only [allPropertiesFrom, List.get_eq_getElem, List.getElem_cons_succ]
      have := ih (index + 1) k (by simpa [allPropertiesFrom] using h)
      simp only [List.get_eq_getElem] at this
      rw [this]; omega

theorem allPropertiesFrom_keys (catalog : List String) (index : Nat) :
    (allPropertiesFrom catalog index).map (fun p => foldCase p.name) =
      catalog.map foldCase := by
  have := congrArg (List.map foldCase) (allPropertiesFrom_names catalog index)
  simpa [List.map_map, Function.comp] using this

/-! ## Required properties: lemmas on the resolved set and its lookups -/

theorem create_present (spec : PropertiesRequired) (catalog : List String)
    (hspec : specAbsent (some spec) = false) :
    (fiftyoneDegreesPropertiesCreate (some spec) catalog).items =
      List.insertionSort nameLE
        ((dedupNames (requestedNames spec)).filterMap (catalogLookup catalog)) := by
  simp [fiftyoneDegreesPropertiesCreate, hspec]

theorem create_absent (required : Option PropertiesRequired) (catalog : List String)
    (hspec : specAbsent required = true) :
    (fiftyoneDegreesPropertiesCreate required catalog).items = allPropertiesFrom catalog 0 := by
  cases required with
  | none => rfl
  | some spec => simp [fiftyoneDegreesPropertiesCreate, hspec]

/-- The folded names of the set built from a spec are, up to order, the
distinct folded requested names that are in the catalog. -/
theorem create_keys_perm (spec : PropertiesRequired) (catalog : List String)
    (hspec : specAbsent (some spec) = false) :
    ((fiftyoneDegreesPropertiesCreate (some spec) catalog).items.map
        (fun p => foldCase p.name)).Perm
      ((((requestedNames spec).map foldCase).dedup).filter
        (fun k => decide (k ∈ catalog.map foldCase))) := by
  rw [create_present spec catalog hspec, ← dedupNames_map, ← filterMap_lookup_keys]
  exact (List.perm_insertionSort nameLE _).map _

theorem create_keys_nodup (spec : PropertiesRequired) (catalog : List String)
    (hspec : specAbsent (some spec) = false) :
    ((fiftyoneDegreesPropertiesCreate (some spec) catalog).items.map
        (fun p => foldCase p.name)).Nodup :=
  (create_keys_perm spec catalog hspec).nodup_iff.mpr ((List.nodup_dedup _).filter _)

/-- The folded names of the set built from a spec are strictly ascending. -/
theorem create_keys_sorted (spec : PropertiesRequired) (catalog : List String)
    (hspec : specAbsent (some spec) = false) :
    ((fiftyoneDegreesPropertiesCreate (some spec) catalog).items.map
        (fun p => foldCase p.name)).Sorted (fun a b => a < b) := by
  haveI : IsTotal PropertyAvailable nameLE := ⟨fun a b => le_total (foldCase a.name) _⟩
  haveI : IsTrans PropertyAvailable nameLE :=
    ⟨fun a b c hab hbc => le_trans (α := List Char) hab hbc⟩
  have hsorted : ((fiftyoneDegreesPropertiesCreate (some spec) catalog).items.map
      (fun p => foldCase p.name)).Sorted (fun a b => a ≤ b) := by
    rw [create_present spec catalog hspec]
    exact List.pairwise_map.mpr (List.sorted_insertionSort nameLE _)
  exact hsorted.lt_of_le (create_keys_nodup spec catalog hspec)

/-- The entries of the set built from a spec are catalog entries, each the
one the lookup gives for its own name. -/
theorem create_items_lookup (spec : PropertiesRequired) (catalog : List String)
    (hspec : specAbsent (some spec) = false) (p : PropertyAvailable)
    (hp : p ∈ (fiftyoneDegreesPropertiesCreate (some spec) catalog).items) :
    catalogLookup catalog p.name = some p ∧ p.name ∈ catalog := by
  rw [create_present spec catalog hspec] at hp
  exact filterMap_lookup_self catalog _ p ((List.perm_insertionSort nameLE _).mem_iff.mp hp)

theorem searchName_not_mem (name : String) (items : List PropertyAvailable) (index : Nat)
    (h : foldCase name ∉ items.map (fun p => foldCase p.name)) :
    searchName name items index = -1 := by
  induction items generalizing index with
  | nil => rfl
  | cons p ps ih =>
    simp only [List.map_cons, List.mem_cons, not_or] at h
    have hne : ¬ foldCase p.name = foldCase name := fun e => h.1 e.symm
    simp only [searchName, hne, if_false]
    exact ih _ h.2

/-- The search finds the first entry that equals the name when case is
ignored. -/
theorem searchName_mem (name : String) (items : List PropertyAvailable) (index : Nat)
    (h : foldCase name ∈ items.map (fun p => foldCase p.name)) :
    ∃ (j : Nat) (hj : j < items.length),
      searchName name items index = ((index + j : Nat) : Int) ∧
      foldCase (items.get ⟨j, hj⟩).name = foldCase name := by
  induction items generalizing index with
  | nil => simp at h
  | cons p ps ih =>
    by_cases he : foldCase p.name = foldCase name
    · exact ⟨0, by simp, by simp [searchName, he], by simpa using he⟩
    · simp only [List.map_cons, List.mem_cons] at h
      rcases h with h | h
      · exact absurd h.symm he
      · obtain ⟨j, hj, h1, h2⟩ := ih (index + 1) h
        refine ⟨j + 1, by simpa using hj, ?_, ?_⟩
        · simp only [searchName, he, if_false, h1]
          congr 1; omega
        · simpa using h2

theorem getIndex_not_mem (available : PropertiesAvailable) (name : String)
    (h : foldCase name ∉ available.items.map (fun p => foldCase p.name)) :
    fiftyoneDegreesPropertiesGetRequiredPropertyIndexFromName available name = -1 :=
  searchName_not_mem name available.items 0 h

/-- A name that is in the resolved set in some spelling has a required index
in range, and the name read back at that index equals it when case is ignored. -/
theorem getIndex_mem (available : PropertiesAvailable) (name : String)
    (h : foldCase name ∈ available.items.map (fun p => foldCase p.name)) :
    ∃ (i : Nat) (hi : i < available.items.length),
      fiftyoneDegreesPropertiesGetRequiredPropertyIndexFromName available name = (i : Int) ∧
      foldCase (available.items.get ⟨i, hi⟩).name = foldCase name ∧
      fiftyoneDegreesPropertiesGetNameFromRequiredIndex available
        (fiftyoneDegreesPropertiesGetRequiredPropertyIndexFromName available name) =
          some (available.items.get ⟨i, hi⟩).name := by
  obtain ⟨j, hj, h1, h2⟩ := searchName_mem name available.items 0 h
  rw [Nat.zero_add] at h1
  refine ⟨j, hj, h1, h2, ?_⟩
  rw [fiftyoneDegreesPropertiesGetRequiredPropertyIndexFromName, h1]
  simp only [fiftyoneDegreesPropertiesGetNameFromRequiredIndex, Int.toNat_ofNat,
    Int.ofNat_zero_le, if_true, List.get_eq_getElem]
  rw [List.getElem?_eq_getElem hj]
  rfl

/-- In a set whose folded names are distinct, each entry is found at its own
position. -/
theorem getIndex_position (available : PropertiesAvailable)
    (hnodup : (available.items.map (fun p => foldCase p.name)).Nodup)
    (i : Nat) (hi : i < available.items.length) :
    fiftyoneDegreesPropertiesGetRequiredPropertyIndexFromName available
      (available.items.get ⟨i, hi⟩).name = (i : Int) := by
  have hmem : foldCase (available.items.get ⟨i, hi⟩).name ∈
      available.items.map (fun p => foldCase p.name) :=
    List.mem_map_of_mem (fun p : PropertyAvailable => foldCase p.name) (List.get_mem _ _ _)
  obtain ⟨j, hj, h1, h2, _⟩ := getIndex_mem available _ hmem
  rw [h1]
  have hj2 : j < (available.items.map (fun p => foldCase p.name)).length := by simpa using hj
  have hi2 : i < (available.items.map (fun p => foldCase p.name)).length := by simpa using hi
  have heq : (available.items.map (fun p => foldCase p.name)).get ⟨j, hj2⟩ =
      (available.items.map (fun p => foldCase p.name)).get ⟨i, hi2⟩ := by
    simpa [List.get_eq_getElem] using h2
  have := (List.Nodup.get_inj_iff hnodup).mp heq
  simp only [Fin.mk.injEq] at this
  rw [this]

theorem searchName_congr (n m : String) (h : foldCase n = foldCase m)
    (items : List PropertyAvailable) (index : Nat) :
    searchName n items index = searchName m items index := by
  induction items generalizing index with
  | nil => rfl
  | cons p ps ih => simp only [searchName, h, ih]

theorem requiredNames_present (spec : PropertiesRequired) (catalog : List String)
    (hspec : specAbsent (some spec) = false) :
    requiredNames (some spec) catalog = requestedNames spec := by
  simp [requiredNames, hspec]

theorem requiredNames_absent (required : Option PropertiesRequired) (catalog : List String)
    (hspec : specAbsent required = true) :
    requiredNames required catalog = catalog := by
  cases required with
  | none => rfl
  | some spec => simp [requiredNames, hspec]

/-- The folded names of a resolved set are the folded names that are both
required and in the catalog. -/
theorem create_keys_mem (required : Option PropertiesRequired) (catalog : List String)
    (k : List Char) :
    k ∈ (fiftyoneDegreesPropertiesCreate required catalog).items.map
        (fun p => foldCase p.name) ↔
      (k ∈ (requiredNames required catalog).map foldCase ∧ k ∈ catalog.map foldCase) := by
  by_cases hspec : specAbsent required = true
  · rw [create_absent required catalog hspec, requiredNames_absent required catalog hspec,
      allPropertiesFrom_keys]
    exact ⟨fun h => ⟨h, h⟩, fun h => h.1⟩
  · cases required with
    | none => exact absurd rfl hspec
    | some spec =>
      have hs : specAbsent (some spec) = false := by simpa using hspec
      rw [(create_keys_perm spec catalog hs).mem_iff, requiredNames_present spec catalog hs]
      simp [List.mem_filter, List.mem_dedup]

/-- Every entry of a resolved set is a catalog entry. -/
theorem create_items_in_catalog (required : Option PropertiesRequired)
    (catalog : List String) (p : PropertyAvailable)
    (hp : p ∈ (fiftyoneDegreesPropertiesCreate required catalog).items) :
    p.name ∈ catalog := by
  by_cases hspec : specAbsent required = true
  · rw [create_absent required catalog hspec] at hp
    have := List.mem_map_of_mem (fun p : PropertyAvailable => p.name) hp
    rwa [allPropertiesFrom_names] at this
  · cases required with
    | none => exact absurd rfl hspec
    | some spec =>
      exact (create_items_lookup spec catalog (by simpa using hspec) p hp).2

/-- Two specs that request the same names, case ignored, build the same set. -/
theorem create_order_independent (spec1 spec2 : PropertiesRequired) (catalog : List String)
    (h1 : specAbsent (some spec1) = false) (h2 : specAbsent (some spec2) = false)
    (hsame : ∀ k, k ∈ (requestedNames spec1).map foldCase ↔
      k ∈ (requestedNames spec2).map foldCase) :
    fiftyoneDegreesPropertiesCreate (some spec1) catalog =
      fiftyoneDegreesPropertiesCreate (some spec2) catalog := by
  have hperm : ((fiftyoneDegreesPropertiesCreate (some spec1) catalog).items.map
        (fun p => foldCase p.name)).Perm
      ((fiftyoneDegreesPropertiesCreate (some spec2) catalog).items.map
        (fun p => foldCase p.name)) := by
    refine (create_keys_perm spec1 catalog h1).trans
      (List.Perm.trans ?_ (create_keys_perm spec2 catalog h2).symm)
    apply List.Perm.filter
    rw [List.perm_ext_iff_of_nodup (List.nodup_dedup _) (List.nodup_dedup _)]
    intro k
    simp only [List.mem_dedup]
    exact hsame k
  haveI : IsAntisymm (List Char) (fun a b => a < b) :=
    ⟨fun a b hab hba => absurd hab (lt_asymm hba)⟩
  have hkeys := List.eq_of_perm_of_sorted hperm (create_keys_sorted spec1 catalog h1)
    (create_keys_sorted spec2 catalog h2)
  have hlen : (fiftyoneDegreesPropertiesCreate (some spec1) catalog).items.length =
      (fiftyoneDegreesPropertiesCreate (some spec2) catalog).items.length := by
    have := congrArg List.length hkeys
    simpa using this
  have hitems : (fiftyoneDegreesPropertiesCreate (some spec1) catalog).items =
      (fiftyoneDegreesPropertiesCreate (some spec2) catalog).items := by
    apply List.ext_getElem hlen
    intro i hi1 hi2
    have hk : foldCase ((fiftyoneDegreesPropertiesCreate (some spec1) catalog).items[i]).name =
        foldCase ((fiftyoneDegreesPropertiesCreate (some spec2) catalog).items[i]).name := by
      have := congrArg (fun l => l[i]?) hkeys
      simpa [List.getElem?_eq_getElem hi1, List.getElem?_eq_getElem hi2] using this
    have e1 := (create_items_lookup spec1 catalog h1 _ (List.getElem_mem hi1)).1
    have e2 := (create_items_lookup spec2 catalog h2 _ (List.getElem_mem hi2)).1
    rw [catalogLookup, catalogLookupFrom_congr _ _ hk] at e1
    rw [catalogLookup] at e2
    rw [e1] at e2
    exact Option.some.inj e2
  cases hc1 : fiftyoneDegreesPropertiesCreate (some spec1) catalog
  cases hc2 : fiftyoneDegreesPropertiesCreate (some spec2) catalog
  rw [hc1, hc2] at hitems
  simpa using hitems

/-! ## Required properties: order and indices -/

/-- C12: for every required-properties spec that is given (a delimited string
or a name array; an empty one is the absence of a spec) and every catalog, the
names of the set built by `fiftyoneDegreesPropertiesCreate` are in strictly
ascending case-insensitive order, `fiftyoneDegreesPropertiesGetRequiredPropertyIndexFromName` returns each
resolved name's position 0..count-1 in that order, and the set does not depend
on the order or the form in which the names were requested ("Yellow,Black", as
a string or as an array, gives Black = 0 and Yellow = 1). -/
theorem create_sorted_positions (spec : PropertiesRequired) (catalog : List String)
    (hspec : specAbsent (some spec) = false) :
    ((fiftyoneDegreesPropertiesCreate (some spec) catalog).items.map
      (fun p => foldCase p.name)).Sorted (fun a b => a < b) ∧
    (∀ (i : Nat) (hi : i < (fiftyoneDegreesPropertiesCreate (some spec) catalog).items.length),
      fiftyoneDegreesPropertiesGetRequiredPropertyIndexFromName
        (fiftyoneDegreesPropertiesCreate (some spec) catalog)
        ((fiftyoneDegreesPropertiesCreate (some spec) catalog).items.get ⟨i, hi⟩).name =
        (i : Int)) ∧
    (∀ spec2 : PropertiesRequired, specAbsent (some spec2) = false →
      (∀ k, k ∈ (requestedNames spec2).map foldCase ↔
        k ∈ (requestedNames spec).map foldCase) →
      fiftyoneDegreesPropertiesCreate (some spec2) catalog =
        fiftyoneDegreesPropertiesCreate (some spec) catalog) ∧
    (fiftyoneDegreesPropertiesGetRequiredPropertyIndexFromName
        (fiftyoneDegreesPropertiesCreate (some (.string "Yellow,Black")) testValues)
        "Black" = 0 ∧
      fiftyoneDegreesPropertiesGetRequiredPropertyIndexFromName
        (fiftyoneDegreesPropertiesCreate (some (.string "Yellow,Black")) testValues)
        "Yellow" = 1 ∧
      fiftyoneDegreesPropertiesGetRequiredPropertyIndexFromName
        (fiftyoneDegreesPropertiesCreate (some (.array ["Yellow", "Black"])) testValues)
        "Black" = 0 ∧
      fiftyoneDegreesPropertiesGetRequiredPropertyIndexFromName
        (fiftyoneDegreesPropertiesCreate (some (.array ["Yellow", "Black"])) testValues)
        "Yellow" = 1) := by
  refine ⟨create_keys_sorted spec catalog hspec, ?_, ?_, by decide⟩
  · intro i hi
    exact getIndex_position _ (create_keys_nodup spec catalog hspec) i hi
  · intro spec2 h2 hsame
    exact create_order_independent spec2 spec catalog h2 hspec hsame

theorem create_sorted_positions_witness :
    specAbsent (some (.array ["Yellow", "black", "Beige"])) = false ∧
    ((fiftyoneDegreesPropertiesCreate (some (.array ["Yellow", "black", "Beige"]))
      testValues).items.map (fun p => foldCase p.name)).Sorted (fun a b => a < b) ∧
    (fiftyoneDegreesPropertiesCreate (some (.array ["Yellow", "black", "Beige"]))
      testValues).items.map (fun p => p.name) = ["Black", "Yellow"] :=
  ⟨rfl,
    (create_sorted_positions (.array ["Yellow", "black", "Beige"]) testValues rfl).1,
    by decide⟩

/-! ## Required properties: names that are not found -/

/-- C13, as amended: for every resolved set and every name, with names
compared ignoring case, `fiftyoneDegreesPropertiesGetRequiredPropertyIndexFromName`
returns -1 both when the name is not in the catalog (requested or not) and when
the name was not requested; a requested name that is in the catalog gets a
non-negative index below count, and the name read back with
`fiftyoneDegreesPropertiesGetNameFromRequiredIndex` is a catalog name equal to it
when case is ignored, and the name itself when the catalog holds it in no other
spelling ("Yellow,Beige" over the test catalog: Yellow = 0 and reads back
"Yellow", Beige = -1, Red = -1). -/
theorem index_of_missing_names (required : Option PropertiesRequired)
    (catalog : List String) (name : String) :
    (foldCase name ∉ catalog.map foldCase →
      fiftyoneDegreesPropertiesGetRequiredPropertyIndexFromName
        (fiftyoneDegreesPropertiesCreate required catalog) name = -1) ∧
    (foldCase name ∉ (requiredNames required catalog).map foldCase →
      fiftyoneDegreesPropertiesGetRequiredPropertyIndexFromName
        (fiftyoneDegreesPropertiesCreate required catalog) name = -1) ∧
    (foldCase name ∈ (requiredNames required catalog).map foldCase →
      foldCase name ∈ catalog.map foldCase →
      ∃ i : Nat, i < (fiftyoneDegreesPropertiesCreate required catalog).count ∧
        fiftyoneDegreesPropertiesGetRequiredPropertyIndexFromName
          (fiftyoneDegreesPropertiesCreate required catalog) name = (i : Int) ∧
        ∃ m : String,
          fiftyoneDegreesPropertiesGetNameFromRequiredIndex
            (fiftyoneDegreesPropertiesCreate required catalog)
            (fiftyoneDegreesPropertiesGetRequiredPropertyIndexFromName
              (fiftyoneDegreesPropertiesCreate required catalog) name) = some m ∧
          foldCase m = foldCase name ∧ m ∈ catalog ∧
          ((∀ c ∈ catalog, foldCase c = foldCase name → c = name) → m = name)) ∧
    (fiftyoneDegreesPropertiesGetRequiredPropertyIndexFromName
        (fiftyoneDegreesPropertiesCreate (some (.string "Yellow,Beige")) testValues)
        "Yellow" = 0 ∧
      fiftyoneDegreesPropertiesGetNameFromRequiredIndex
        (fiftyoneDegreesPropertiesCreate (some (.string "Yellow,Beige")) testValues) 0 =
        some "Yellow" ∧
      fiftyoneDegreesPropertiesGetRequiredPropertyIndexFromName
        (fiftyoneDegreesPropertiesCreate (some (.string "Yellow,Beige")) testValues)
        "Beige" = -1 ∧
      fiftyoneDegreesPropertiesGetRequiredPropertyIndexFromName
        (fiftyoneDegreesPropertiesCreate (some (.string "Yellow,Beige")) testValues)
        "Red" = -1) := by
  refine ⟨?_, ?_, ?_, by decide⟩
  · intro h
    exact getIndex_not_mem _ _ (fun hk => h ((create_keys_mem required catalog _).mp hk).2)
  · intro h
    exact getIndex_not_mem _ _ (fun hk => h ((create_keys_mem required catalog _).mp hk).1)
  · intro hreq hcat
    obtain ⟨i, hi, h1, h2, h3⟩ := getIndex_mem _ name
      ((create_keys_mem required catalog _).mpr ⟨hreq, hcat⟩)
    have hin := create_items_in_catalog required catalog _ (List.get_mem _ i hi)
    exact ⟨i, hi, h1, _, h3, h2, hin, fun huniq => huniq _ hin h2⟩

theorem index_of_missing_names_witness :
    foldCase "BEIGE" ∉ testValues.map foldCase ∧
    fiftyoneDegreesPropertiesGetRequiredPropertyIndexFromName
      (fiftyoneDegreesPropertiesCreate (some (.string "Yellow,Beige")) testValues)
      "BEIGE" = -1 :=
  ⟨by decide,
    (index_of_missing_names (some (.string "Yellow,Beige")) testValues "BEIGE").1
      (by decide)⟩

/-- C13 fails as stated: over a catalog holding "yellow" and "Yellow", with
both requested, the name "Yellow" is requested and is in the catalog, yet the
name read back at its index is "yellow". -/
theorem read_back_other_spelling :
    ("Yellow" ∈ requestedNames (.array ["yellow", "Yellow"]) ∧ "Yellow" ∈ twoSpellings) ∧
    fiftyoneDegreesPropertiesGetRequiredPropertyIndexFromName
      (fiftyoneDegreesPropertiesCreate (some (.array ["yellow", "Yellow"])) twoSpellings)
      "Yellow" = 0 ∧
    fiftyoneDegreesPropertiesGetNameFromRequiredIndex
      (fiftyoneDegreesPropertiesCreate (some (.array ["yellow", "Yellow"])) twoSpellings)
      0 = some "yellow" ∧
    (fiftyoneDegreesPropertiesCreate (some (.array ["yellow", "Yellow"])) twoSpellings).count =
      1 := by
  decide

/-! ## Required properties: repeated names -/

/-- C14: for every required-properties spec that is given, as a delimited
string or as a name array (an empty one is the absence of a spec), requested
names that are equal when case is ignored count as one required property: the
count of the set built by
`fiftyoneDegreesPropertiesCreate` is the number of case-insensitively distinct
requested names that occur in the catalog (["Yellow","Yellow"], "Yellow,Yellow",
["yellow","Yellow"] and "yellow,Yellow" each give count 1). -/
theorem create_count_distinct (spec : PropertiesRequired) (catalog : List String)
    (hspec : specAbsent (some spec) = false) :
    (fiftyoneDegreesPropertiesCreate (some spec) catalog).count =
      (((requestedNames spec).map foldCase).toFinset ∩
        (catalog.map foldCase).toFinset).card ∧
    ((fiftyoneDegreesPropertiesCreate (some (.array ["Yellow", "Yellow"]))
        testValues).count = 1 ∧
      (fiftyoneDegreesPropertiesCreate (some (.string "Yellow,Yellow"))
        testValues).count = 1 ∧
      (fiftyoneDegreesPropertiesCreate (some (.array ["yellow", "Yellow"]))
        testValues).count = 1 ∧
      (fiftyoneDegreesPropertiesCreate (some (.string "yellow,Yellow"))
        testValues).count = 1) := by
  refine ⟨?_, by decide⟩
  have hperm := create_keys_perm spec catalog hspec
  have hlen : (fiftyoneDegreesPropertiesCreate (some spec) catalog).count =
      ((((requestedNames spec).map foldCase).dedup).filter
        (fun k => decide (k ∈ catalog.map foldCase))).length := by
    rw [← hperm.length_eq, List.length_map]
    rfl
  have hnodup : ((((requestedNames spec).map foldCase).dedup).filter
      (fun k => decide (k ∈ catalog.map foldCase))).Nodup := (List.nodup_dedup _).filter _
  rw [hlen, ← List.toFinset_card_of_nodup hnodup]
  congr 1
  ext k
  simp [List.mem_filter, List.mem_dedup]

theorem create_count_distinct_witness :
    specAbsent (some (.string "Yellow, black ,YELLOW,Beige")) = false ∧
    (fiftyoneDegreesPropertiesCreate (some (.string "Yellow, black ,YELLOW,Beige"))
      testValues).count =
      (((requestedNames (.string "Yellow, black ,YELLOW,Beige")).map foldCase).toFinset ∩
        (testValues.map foldCase).toFinset).card ∧
    (fiftyoneDegreesPropertiesCreate (some (.string "Yellow, black ,YELLOW,Beige"))
      testValues).count = 2 :=
  ⟨rfl,
    (create_count_distinct (.string "Yellow, black ,YELLOW,Beige") testValues rfl).1,
    by decide⟩

/-! ## Required properties: case-insensitive lookup -/

/-- C15: for every resolved property set and every two names that are equal
when case is ignored, `fiftyoneDegreesPropertiesGetRequiredPropertyIndexFromName`
returns the same result for both, and the result is not -1 when the name was
requested in either spelling and is in the catalog. -/
theorem index_ignores_case (required : Option PropertiesRequired)
    (catalog : List String) (n1 n2 : String) (hfold : foldCase n1 = foldCase n2) :
    (∀ available : PropertiesAvailable,
      fiftyoneDegreesPropertiesGetRequiredPropertyIndexFromName available n1 =
        fiftyoneDegreesPropertiesGetRequiredPropertyIndexFromName available n2) ∧
    fiftyoneDegreesPropertiesGetRequiredPropertyIndexFromName
        (fiftyoneDegreesPropertiesCreate required catalog) n1 =
      fiftyoneDegreesPropertiesGetRequiredPropertyIndexFromName
        (fiftyoneDegreesPropertiesCreate required catalog) n2 ∧
    (foldCase n1 ∈ (requiredNames required catalog).map foldCase →
      foldCase n1 ∈ catalog.map foldCase →
      fiftyoneDegreesPropertiesGetRequiredPropertyIndexFromName
        (fiftyoneDegreesPropertiesCreate required catalog) n1 ≠ -1 ∧
      fiftyoneDegreesPropertiesGetRequiredPropertyIndexFromName
        (fiftyoneDegreesPropertiesCreate required catalog) n2 ≠ -1) := by
  have hall : ∀ available : PropertiesAvailable,
      fiftyoneDegreesPropertiesGetRequiredPropertyIndexFromName available n1 =
        fiftyoneDegreesPropertiesGetRequiredPropertyIndexFromName available n2 :=
    fun available => searchName_congr n1 n2 hfold available.items 0
  refine ⟨hall, hall _, ?_⟩
  intro hreq hcat
  obtain ⟨i, _, h1, _⟩ := getIndex_mem _ n1
    ((create_keys_mem required catalog _).mpr ⟨hreq, hcat⟩)
  have hne : fiftyoneDegreesPropertiesGetRequiredPropertyIndexFromName
      (fiftyoneDegreesPropertiesCreate required catalog) n1 ≠ -1 := by
    rw [h1]; omega
  exact ⟨hne, by rw [← hall]; exact hne⟩

theorem index_ignores_case_witness :
    foldCase "yellow" = foldCase "Yellow" ∧
    fiftyoneDegreesPropertiesGetRequiredPropertyIndexFromName
        (fiftyoneDegreesPropertiesCreate (some (.array ["yellow"])) testValues) "yellow" =
      fiftyoneDegreesPropertiesGetRequiredPropertyIndexFromName
        (fiftyoneDegreesPropertiesCreate (some (.array ["yellow"])) testValues) "Yellow" ∧
    fiftyoneDegreesPropertiesGetRequiredPropertyIndexFromName
        (fiftyoneDegreesPropertiesCreate (some (.array ["yellow"])) testValues) "yellow" ≠ -1 :=
  ⟨by decide,
    (index_ignores_case (some (.array ["yellow"])) testValues "yellow" "Yellow"
      (by decide)).2.1,
    ((index_ignores_case (some (.array ["yellow"])) testValues "yellow" "Yellow"
      (by decide)).2.2 (by decide) (by decide)).1⟩

/-! ## Required properties: no spec -/

/-- C16, as amended: for every catalog, `fiftyoneDegreesPropertiesCreate`
called with no spec yields a set whose count is the catalog size and whose
entries are the catalog entries in catalog order, each with its own position as
index; every catalog name n is found, and the name read back at its index is a
catalog name equal to n when case is ignored, and n itself when the catalog
holds it in no other spelling (as for every name of the test catalog). -/
theorem create_all_properties (catalog : List String) :
    (fiftyoneDegreesPropertiesCreate none catalog).count = catalog.length ∧
    (fiftyoneDegreesPropertiesCreate none catalog).items.map (fun p => p.name) = catalog ∧
    (∀ (i : Nat) (hi : i < (fiftyoneDegreesPropertiesCreate none catalog).items.length),
      ((fiftyoneDegreesPropertiesCreate none catalog).items.get ⟨i, hi⟩).propertyIndex = i) ∧
    (∀ n ∈ catalog,
      ∃ m : String,
        fiftyoneDegreesPropertiesGetNameFromRequiredIndex
          (fiftyoneDegreesPropertiesCreate none catalog)
          (fiftyoneDegreesPropertiesGetRequiredPropertyIndexFromName
            (fiftyoneDegreesPropertiesCreate none catalog) n) = some m ∧
        foldCase m = foldCase n ∧ m ∈ catalog ∧
        ((∀ c ∈ catalog, foldCase c = foldCase n → c = n) → m = n)) ∧
    (∀ n ∈ testValues,
      fiftyoneDegreesPropertiesGetNameFromRequiredIndex
        (fiftyoneDegreesPropertiesCreate none testValues)
        (fiftyoneDegreesPropertiesGetRequiredPropertyIndexFromName
          (fiftyoneDegreesPropertiesCreate none testValues) n) = some n) := by
  refine ⟨allPropertiesFrom_length catalog 0, allPropertiesFrom_names catalog 0, ?_, ?_,
    by decide⟩
  · intro i hi
    have := allPropertiesFrom_index catalog 0 i hi
    rw [Nat.zero_add] at this
    exact this
  · intro n hn
    have hkey : foldCase n ∈ (fiftyoneDegreesPropertiesCreate none catalog).items.map
        (fun p => foldCase p.name) :=
      (create_keys_mem none catalog _).mpr
        ⟨List.mem_map_of_mem foldCase hn, List.mem_map_of_mem foldCase hn⟩
    obtain ⟨i, hi, _, h2, h3⟩ := getIndex_mem _ n hkey
    have hin := create_items_in_catalog none catalog _ (List.get_mem _ i hi)
    exact ⟨_, h3, h2, hin, fun huniq => huniq _ hin h2⟩

theorem create_all_properties_witness :
    "Brown" ∈ testValues ∧
    (∀ c ∈ testValues, foldCase c = foldCase "Brown" → c = "Brown") ∧
    ∃ m : String,
      fiftyoneDegreesPropertiesGetNameFromRequiredIndex
        (fiftyoneDegreesPropertiesCreate none testValues)
        (fiftyoneDegreesPropertiesGetRequiredPropertyIndexFromName
          (fiftyoneDegreesPropertiesCreate none testValues) "Brown") = some m ∧
      m = "Brown" := by
  refine ⟨by decide, by decide, ?_⟩
  obtain ⟨m, h1, _, _, h4⟩ := (create_all_properties testValues).2.2.2.1 "Brown" (by decide)
  exact ⟨m, h1, h4 (by decide)⟩

/-- C16 fails as stated: over a catalog holding "yellow" and "Yellow" the
catalog name "Yellow" is found at index 0, and the name read back there is
"yellow". -/
theorem create_all_read_back_other_spelling :
    "Yellow" ∈ twoSpellings ∧
    fiftyoneDegreesPropertiesGetRequiredPropertyIndexFromName
      (fiftyoneDegreesPropertiesCreate none twoSpellings) "Yellow" = 0 ∧
    fiftyoneDegreesPropertiesGetNameFromRequiredIndex
      (fiftyoneDegreesPropertiesCreate none twoSpellings)
      (fiftyoneDegreesPropertiesGetRequiredPropertyIndexFromName
        (fiftyoneDegreesPropertiesCreate none twoSpellings) "Yellow") = some "yellow" := by
  decide

end FiftyoneDegrees
